import Mathlib

/-!
Verification of the `@solana/legacy` message compiler, transaction
orchestrator and PDA deriver (packages/legacy/src).  The TypeScript
source is embedded shallowly: addresses are their 32 raw bytes
(`List Nat`), the JavaScript `Map` (which preserves insertion order) is
an association list with in-place upsert, and the asynchronous
cryptographic collaborators (digest, curve membership, signature
verification) are function parameters.
-/

set_option maxRecDepth 4000

namespace SolanaKit

/-- A public key / address, identified by its 32 raw bytes.  The source
keys its maps by the base58 text form, which is a bijective image of the
bytes, so keying by the bytes is equivalent. -/
abbrev Addr := List Nat

/-- `AccountMeta` from message.ts: an address plus its signer/writable flags. -/
structure AccountMeta where
  pubkey : Addr
  isSigner : Bool
  isWritable : Bool
deriving DecidableEq, Repr

/-- `TransactionInstruction` from message.ts (already normalized). -/
structure TransactionInstruction where
  programId : Addr
  keys : List AccountMeta
  data : List Nat
deriving DecidableEq, Repr

/-- `MessageHeader` from message.ts. -/
structure MessageHeader where
  numRequiredSignatures : Nat
  numReadonlySignedAccounts : Nat
  numReadonlyUnsignedAccounts : Nat
deriving DecidableEq, Repr

/-- `CompiledInstruction` from message.ts.  The source stores `data` as a
base64 string of the raw bytes; the model keeps the bytes themselves
(base64 text conversion is a bijection on canonical forms). -/
structure CompiledInstruction where
  programIdIndex : Nat
  accounts : List Nat
  data : List Nat
deriving DecidableEq, Repr

/-- Legacy `Message` from message.ts.  `recentBlockhash` is kept as the 32
decoded bytes of the base58 blockhash string. -/
structure Message where
  header : MessageHeader
  accountKeys : List Addr
  recentBlockhash : List Nat
  instructions : List CompiledInstruction
deriving DecidableEq, Repr

/-- `MessageAddressTableLookup` from message.ts. -/
structure MessageAddressTableLookup where
  accountKey : Addr
  writableIndexes : List Nat
  readonlyIndexes : List Nat
deriving DecidableEq, Repr

/-- `MessageV0` from message.ts. -/
structure MessageV0 where
  header : MessageHeader
  staticAccountKeys : List Addr
  recentBlockhash : List Nat
  compiledInstructions : List CompiledInstruction
  addressTableLookups : List MessageAddressTableLookup
deriving DecidableEq, Repr

/-- `AddressLookupTableAccount` from message.ts: table key plus its stored
address list. -/
structure AddressLookupTableAccount where
  key : Addr
  addresses : List Addr
deriving DecidableEq, Repr

/-! ### Association lists mirroring the JavaScript `Map`

A JS `Map` iterates in insertion order; `set` on an existing key keeps
its position.  `upsert k merge ins` applies `merge` in place when `k` is
present and appends `(k, ins)` otherwise. -/

/-- `Map.get`: the value stored at key `k`, if any. -/
def alookup (k : Addr) : List (Addr × β) → Option β
  | [] => none
  | (k', v) :: rest => if k' = k then some v else alookup k rest

/-- `Map.set` that merges with an existing entry in place (preserving
insertion order) and appends a fresh entry otherwise. -/
def upsert (k : Addr) (merge : β → β) (ins : β) : List (Addr × β) → List (Addr × β)
  | [] => [(k, ins)]
  | (k', v) :: rest =>
      if k' = k then (k', merge v) :: rest else (k', v) :: upsert k merge ins rest

/-- Keys are pairwise distinct, as in a JS `Map`. -/
def NodupKeys (l : List (Addr × β)) : Prop := l.Pairwise (fun p q => p.1 ≠ q.1)

theorem alookup_upsert_self (k : Addr) (merge : β → β) (ins : β) (l : List (Addr × β)) :
    alookup k (upsert k merge ins l) = some ((alookup k l).elim ins merge) := by
  induction l with
  | nil => simp [alookup, upsert]
  | cons p rest ih =>
      obtain ⟨k', v⟩ := p
      by_cases h : k' = k
      · simp [alookup, upsert, h]
      · simp [alookup, upsert, h, ih]

theorem alookup_upsert_ne (k k' : Addr) (merge : β → β) (ins : β) (l : List (Addr × β))
    (h : k' ≠ k) : alookup k' (upsert k merge ins l) = alookup k' l := by
  have hk : k ≠ k' := fun hh => h hh.symm
  induction l with
  | nil => simp only [upsert, alookup]; rw [if_neg hk]
  | cons p rest ih =>
      obtain ⟨k₀, v⟩ := p
      by_cases h0 : k₀ = k
      · subst h0
        rw [upsert, if_pos rfl]
        simp only [alookup]
        rw [if_neg hk, if_neg hk]
      · rw [upsert, if_neg h0]
        simp only [alookup]
        by_cases h1 : k₀ = k'
        · rw [if_pos h1, if_pos h1]
        · rw [if_neg h1, if_neg h1, ih]

theorem mem_of_mem_upsert {k : Addr} {merge : β → β} {ins : β} {l : List (Addr × β)}
    {q : Addr × β} (hq : q ∈ upsert k merge ins l) : q.1 = k ∨ q ∈ l := by
  induction l with
  | nil => simp [upsert] at hq; simp [hq]
  | cons p rest ih =>
      obtain ⟨k', v⟩ := p
      by_cases hk : k' = k
      · rw [upsert, if_pos hk] at hq
        rcases List.mem_cons.mp hq with h | h
        · left; rw [h]; exact hk
        · right; exact List.mem_cons_of_mem _ h
      · rw [upsert, if_neg hk] at hq
        rcases List.mem_cons.mp hq with h | h
        · right; rw [h]; exact List.mem_cons_self _ _
        · rcases ih h with h' | h'
          · left; exact h'
          · right; exact List.mem_cons_of_mem _ h'

theorem nodupKeys_upsert (k : Addr) (merge : β → β) (ins : β) (l : List (Addr × β))
    (h : NodupKeys l) : NodupKeys (upsert k merge ins l) := by
  induction l with
  | nil => simp [upsert, NodupKeys]
  | cons p rest ih =>
      obtain ⟨k', v⟩ := p
      rw [NodupKeys, List.pairwise_cons] at h
      obtain ⟨hhead, htail⟩ := h
      by_cases hk : k' = k
      · rw [NodupKeys, upsert, if_pos hk, List.pairwise_cons]
        exact ⟨hhead, htail⟩
      · rw [NodupKeys, upsert, if_neg hk, List.pairwise_cons]
        constructor
        · intro q hq
          rcases mem_of_mem_upsert hq with hq' | hq'
          · exact hq' ▸ hk
          · exact hhead q hq'
        · exact ih htail

theorem upsert_cons (k : Addr) (f : β → β) (i : β) (p : Addr) (v : β) (t : List (Addr × β)) :
    upsert k f i ((p, v) :: t) =
      if p = k then (p, f v) :: t else (p, v) :: upsert k f i t := rfl

theorem alookup_eq_some_of_mem {l : List (Addr × β)} (h : NodupKeys l) {a : Addr} {e : β}
    (hm : (a, e) ∈ l) : alookup a l = some e := by
  induction l with
  | nil => cases hm
  | cons p rest ih =>
      obtain ⟨k', v⟩ := p
      rw [NodupKeys, List.pairwise_cons] at h
      rcases List.mem_cons.mp hm with heq | hmem
      · cases heq
        simp [alookup]
      · rw [alookup]
        have hne : k' ≠ a := h.1 (a, e) hmem
        rw [if_neg hne]
        exact ih h.2 hmem

theorem mem_of_alookup_eq_some {l : List (Addr × β)} {a : Addr} {e : β}
    (h : alookup a l = some e) : (a, e) ∈ l := by
  induction l with
  | nil => simp [alookup] at h
  | cons p rest ih =>
      obtain ⟨k', v⟩ := p
      rw [alookup] at h
      by_cases hk : k' = a
      · rw [if_pos hk] at h
        cases h
        rw [hk]
        exact List.mem_cons_self _ _
      · rw [if_neg hk] at h
        exact List.mem_cons_of_mem _ (ih h)

theorem alookup_isSome_iff_mem_keys {l : List (Addr × β)} {a : Addr} :
    (alookup a l).isSome ↔ a ∈ l.map Prod.fst := by
  induction l with
  | nil => simp [alookup]
  | cons p rest ih =>
      obtain ⟨k', v⟩ := p
      rw [alookup]
      by_cases hk : k' = a
      · simp [hk]
      · rw [if_neg hk]
        simp only [List.map_cons, List.mem_cons]
        rw [ih]
        constructor
        · intro h; right; exact h
        · intro h
          rcases h with h | h
          · exact absurd h.symm hk
          · exact h

/-! ### The legacy message compiler (`Message.compile`, message.ts lines 322-403) -/

/-- The role part of a legacy account-map entry. -/
structure LegacyRole where
  isSigner : Bool
  isWritable : Bool
deriving DecidableEq, Repr

/-- Merging an account meta into an existing entry: flags are ORed
("upgrade permissions if needed"). -/
def legacyMergeMeta (m : AccountMeta) (e : LegacyRole) : LegacyRole :=
  ⟨e.isSigner || m.isSigner, e.isWritable || m.isWritable⟩

/-- Processing one instruction: the program id is inserted at
`{isSigner: false, isWritable: false}` when absent, then every account
meta is upserted with the OR merge. -/
def legacyProcessIx (map : List (Addr × LegacyRole)) (ix : TransactionInstruction) :
    List (Addr × LegacyRole) :=
  let map1 := upsert ix.programId id ⟨false, false⟩ map
  ix.keys.foldl
    (fun acc m => upsert m.pubkey (legacyMergeMeta m) ⟨m.isSigner, m.isWritable⟩ acc) map1

/-- The account map after seeding the fee payer at signer+writable and
processing all instructions, in insertion order. -/
def legacyAccountMap (payerKey : Addr) (ixs : List TransactionInstruction) :
    List (Addr × LegacyRole) :=
  ixs.foldl legacyProcessIx [(payerKey, ⟨true, true⟩)]

/-- The final merged role of an address (absent addresses read as
non-signer, non-writable, matching the compiler's defaults). -/
def legacyFinalRole (payerKey : Addr) (ixs : List TransactionInstruction) (a : Addr) :
    LegacyRole :=
  (alookup a (legacyAccountMap payerKey ixs)).getD ⟨false, false⟩

/-- The four buckets of `Message.compile`, in source order. -/
def legacyWritableSigners (payerKey : Addr) (ixs : List TransactionInstruction) :
    List (Addr × LegacyRole) :=
  (legacyAccountMap payerKey ixs).filter (fun e => e.2.isSigner && e.2.isWritable)

def legacyReadonlySigners (payerKey : Addr) (ixs : List TransactionInstruction) :
    List (Addr × LegacyRole) :=
  (legacyAccountMap payerKey ixs).filter (fun e => e.2.isSigner && !e.2.isWritable)

def legacyWritableNonSigners (payerKey : Addr) (ixs : List TransactionInstruction) :
    List (Addr × LegacyRole) :=
  (legacyAccountMap payerKey ixs).filter (fun e => !e.2.isSigner && e.2.isWritable)

def legacyReadonlyNonSigners (payerKey : Addr) (ixs : List TransactionInstruction) :
    List (Addr × LegacyRole) :=
  (legacyAccountMap payerKey ixs).filter (fun e => !e.2.isSigner && !e.2.isWritable)

/-- `orderedAccounts`: writable signers, readonly signers, writable
non-signers, readonly non-signers. -/
def legacyOrderedAccounts (payerKey : Addr) (ixs : List TransactionInstruction) :
    List (Addr × LegacyRole) :=
  legacyWritableSigners payerKey ixs ++ legacyReadonlySigners payerKey ixs ++
    legacyWritableNonSigners payerKey ixs ++ legacyReadonlyNonSigners payerKey ixs

/-- `keyIndexMap.get`: the index of the first occurrence of `a`. -/
def idxOf (a : Addr) : List Addr → Nat
  | [] => 0
  | b :: rest => if b = a then 0 else idxOf a rest + 1

/-- `Message.compile` (message.ts lines 322-403). -/
def Message.compile (ixs : List TransactionInstruction) (payerKey : Addr)
    (recentBlockhash : List Nat) : Message :=
  let orderedKeys := (legacyOrderedAccounts payerKey ixs).map Prod.fst
  { header :=
      { numRequiredSignatures :=
          (legacyWritableSigners payerKey ixs).length + (legacyReadonlySigners payerKey ixs).length
        numReadonlySignedAccounts := (legacyReadonlySigners payerKey ixs).length
        numReadonlyUnsignedAccounts := (legacyReadonlyNonSigners payerKey ixs).length }
    accountKeys := orderedKeys
    recentBlockhash := recentBlockhash
    instructions := ixs.map (fun ix =>
      { programIdIndex := idxOf ix.programId orderedKeys
        accounts := ix.keys.map (fun m => idxOf m.pubkey orderedKeys)
        data := ix.data }) }

/-! ### The v0 message compiler (`MessageV0.compile`, message.ts lines 534-694) -/

/-- Where a lookup account came from: its index inside the table's own
address list, and the table's key. -/
structure LookupInfo where
  tableIndex : Nat
  tableKey : Addr
deriving DecidableEq, Repr

/-- `AccountEntry` of `MessageV0.compile`. -/
structure AccountEntry where
  isSigner : Bool
  isWritable : Bool
  fromLookup : Option LookupInfo
deriving DecidableEq, Repr

/-- The `lookupMap`: address to (tableIndex, tableKey), first table in
caller-supplied order (and first index within a table) winning. -/
def lookupMapOf (tables : List AddressLookupTableAccount) : List (Addr × LookupInfo) :=
  tables.foldl
    (fun m t =>
      t.addresses.enum.foldl
        (fun acc p => upsert p.2 id ⟨p.1, t.key⟩ acc) m)
    []

/-- Merging an account meta into an existing v0 entry: flags are ORed and
a signer meta forces the entry out of lookup ("if becoming a signer, must
be static"). -/
def v0MergeMeta (m : AccountMeta) (e : AccountEntry) : AccountEntry :=
  { isSigner := e.isSigner || m.isSigner
    isWritable := e.isWritable || m.isWritable
    fromLookup := if m.isSigner then none else e.fromLookup }

/-- A fresh v0 entry for an account meta: non-signers found in the lookup
map are assigned to it ("signers must be static; non-signers can use
lookup"). -/
def v0InsertMeta (lookupMap : List (Addr × LookupInfo)) (m : AccountMeta) : AccountEntry :=
  { isSigner := m.isSigner
    isWritable := m.isWritable
    fromLookup := if m.isSigner then none else alookup m.pubkey lookupMap }

/-- Processing one instruction, program id first then each account meta. -/
def v0ProcessIx (lookupMap : List (Addr × LookupInfo)) (map : List (Addr × AccountEntry))
    (ix : TransactionInstruction) : List (Addr × AccountEntry) :=
  let map1 := upsert ix.programId id ⟨false, false, none⟩ map
  ix.keys.foldl
    (fun acc m => upsert m.pubkey (v0MergeMeta m) (v0InsertMeta lookupMap m) acc) map1

/-- The v0 account map after seeding the fee payer and processing every
instruction. -/
def v0AccountMap (tables : List AddressLookupTableAccount) (payerKey : Addr)
    (ixs : List TransactionInstruction) : List (Addr × AccountEntry) :=
  ixs.foldl (v0ProcessIx (lookupMapOf tables)) [(payerKey, ⟨true, true, none⟩)]

/-- The final merged v0 entry of an address. -/
def v0FinalEntry (tables : List AddressLookupTableAccount) (payerKey : Addr)
    (ixs : List TransactionInstruction) (a : Addr) : AccountEntry :=
  (alookup a (v0AccountMap tables payerKey ixs)).getD ⟨false, false, none⟩

/-- `staticAccounts`: entries not assigned to a lookup table. -/
def v0StaticAccounts (tables : List AddressLookupTableAccount) (payerKey : Addr)
    (ixs : List TransactionInstruction) : List (Addr × AccountEntry) :=
  (v0AccountMap tables payerKey ixs).filter (fun e => e.2.fromLookup.isNone)

/-- `lookupAccounts`: entries assigned to a lookup table. -/
def v0LookupAccounts (tables : List AddressLookupTableAccount) (payerKey : Addr)
    (ixs : List TransactionInstruction) : List (Addr × AccountEntry) :=
  (v0AccountMap tables payerKey ixs).filter (fun e => e.2.fromLookup.isSome)

def v0WritableSigners (tables : List AddressLookupTableAccount) (payerKey : Addr)
    (ixs : List TransactionInstruction) : List (Addr × AccountEntry) :=
  (v0StaticAccounts tables payerKey ixs).filter (fun e => e.2.isSigner && e.2.isWritable)

def v0ReadonlySigners (tables : List AddressLookupTableAccount) (payerKey : Addr)
    (ixs : List TransactionInstruction) : List (Addr × AccountEntry) :=
  (v0StaticAccounts tables payerKey ixs).filter (fun e => e.2.isSigner && !e.2.isWritable)

def v0WritableNonSigners (tables : List AddressLookupTableAccount) (payerKey : Addr)
    (ixs : List TransactionInstruction) : List (Addr × AccountEntry) :=
  (v0StaticAccounts tables payerKey ixs).filter (fun e => !e.2.isSigner && e.2.isWritable)

def v0ReadonlyNonSigners (tables : List AddressLookupTableAccount) (payerKey : Addr)
    (ixs : List TransactionInstruction) : List (Addr × AccountEntry) :=
  (v0StaticAccounts tables payerKey ixs).filter (fun e => !e.2.isSigner && !e.2.isWritable)

/-- `orderedStaticAccounts`. -/
def v0OrderedStatic (tables : List AddressLookupTableAccount) (payerKey : Addr)
    (ixs : List TransactionInstruction) : List (Addr × AccountEntry) :=
  v0WritableSigners tables payerKey ixs ++ v0ReadonlySigners tables payerKey ixs ++
    v0WritableNonSigners tables payerKey ixs ++ v0ReadonlyNonSigners tables payerKey ixs

/-- `tableToLookup`: lookup accounts grouped by originating table key, in
first-appearance order (a JS `Map` of arrays built with `push`). -/
def v0TableGroups (tables : List AddressLookupTableAccount) (payerKey : Addr)
    (ixs : List TransactionInstruction) : List (Addr × List (Addr × AccountEntry)) :=
  (v0LookupAccounts tables payerKey ixs).foldl
    (fun g e =>
      match e.2.fromLookup with
      | some li => upsert li.tableKey (fun accs => accs ++ [e]) [e] g
      | none => g)
    []

/-- The table-internal index recorded for a lookup account (every grouped
entry carries `some` lookup info; absent reads as 0, unreachable). -/
def entryTableIndex (e : Addr × AccountEntry) : Nat :=
  (e.2.fromLookup.map LookupInfo.tableIndex).getD 0

/-- The lookup accounts in message-index order: per group, writable
entries then readonly entries, groups in first-appearance order.  These
are exactly the accounts the produced `addressTableLookups` index. -/
def v0OrderedLookup (tables : List AddressLookupTableAccount) (payerKey : Addr)
    (ixs : List TransactionInstruction) : List (Addr × AccountEntry) :=
  (v0TableGroups tables payerKey ixs).foldr
    (fun g acc =>
      (g.2.filter (fun e => e.2.isWritable) ++ g.2.filter (fun e => !e.2.isWritable)) ++ acc)
    []

/-- The addresses that contribute entries to the produced address-table
lookups. -/
def v0LookupAddresses (tables : List AddressLookupTableAccount) (payerKey : Addr)
    (ixs : List TransactionInstruction) : List Addr :=
  (v0OrderedLookup tables payerKey ixs).map Prod.fst

/-- `MessageV0.compile` (message.ts lines 534-694). -/
def MessageV0.compile (ixs : List TransactionInstruction) (payerKey : Addr)
    (recentBlockhash : List Nat) (tables : List AddressLookupTableAccount) : MessageV0 :=
  let orderedKeys :=
    (v0OrderedStatic tables payerKey ixs).map Prod.fst ++
      (v0OrderedLookup tables payerKey ixs).map Prod.fst
  { header :=
      { numRequiredSignatures :=
          (v0WritableSigners tables payerKey ixs).length +
            (v0ReadonlySigners tables payerKey ixs).length
        numReadonlySignedAccounts := (v0ReadonlySigners tables payerKey ixs).length
        numReadonlyUnsignedAccounts := (v0ReadonlyNonSigners tables payerKey ixs).length }
    staticAccountKeys := (v0OrderedStatic tables payerKey ixs).map Prod.fst
    recentBlockhash := recentBlockhash
    compiledInstructions := ixs.map (fun ix =>
      { programIdIndex := idxOf ix.programId orderedKeys
        accounts := ix.keys.map (fun m => idxOf m.pubkey orderedKeys)
        data := ix.data })
    addressTableLookups := (v0TableGroups tables payerKey ixs).filterMap (fun g =>
      let wIdx := (g.2.filter (fun e => e.2.isWritable)).map entryTableIndex
      let rIdx := (g.2.filter (fun e => !e.2.isWritable)).map entryTableIndex
      if wIdx.length > 0 || rIdx.length > 0 then
        some { accountKey := g.1, writableIndexes := wIdx, readonlyIndexes := rIdx }
      else none) }

/-! ### Version discriminator (`VersionedMessage.deserializeMessageVersion`,
message.ts lines 720-729) -/

/-- Result of version detection. -/
inductive MsgVersion where
  | legacy : MsgVersion
  | versioned : Nat → MsgVersion
deriving DecidableEq, Repr

/-- `deserializeMessageVersion`, applied to the first byte of the
serialized message: the prefix is masked with `0x7f`, and the message is
classified as versioned only when the high bit was set AND the masked
value is at most 0. -/
def deserializeMessageVersion (b : Nat) : MsgVersion :=
  let masked := b &&& 0x7f
  if b ≠ masked ∧ masked ≤ 0 then .versioned masked else .legacy

/-! ### Program-derived-address deriver (`PublicKey.createProgramAddress`,
publickey.ts).  The SHA-256 digest and the curve-membership test are
external cryptographic collaborators, passed as function parameters. -/

inductive PdaError where
  | maxSeedCountExceeded : PdaError
  | maxSeedLengthExceeded : PdaError
  | invalidSeeds : PdaError
deriving DecidableEq, Repr

/-- `MAX_SEED_LENGTH` (publickey.ts). -/
def MAX_SEED_LENGTH : Nat := 32

/-- `MAX_SEEDS` (publickey.ts). -/
def MAX_SEEDS : Nat := 16

/-- `PDA_MARKER_BYTES` (publickey.ts): the bytes appended when hashing
PDAs. -/
def PDA_MARKER_BYTES : List Nat :=
  [80, 114, 111, 103, 114, 97, 109, 68, 101, 114, 105, 118, 101, 100, 65, 100, 100, 114,
    101, 115, 115]

/-- The seed-validation/accumulation loop of `createProgramAddress`: each
seed is length-checked in order, the first overlong seed failing, and the
accepted seeds are concatenated. -/
def collectSeedBytes : List (List Nat) → Except PdaError (List Nat)
  | [] => .ok []
  | s :: rest =>
      if s.length > MAX_SEED_LENGTH then .error .maxSeedLengthExceeded
      else
        match collectSeedBytes rest with
        | .error e => .error e
        | .ok bs => .ok (s ++ bs)

/-- `PublicKey.createProgramAddress` (publickey.ts lines 193-221),
parameterized by the digest and off-curve collaborators. -/
def createProgramAddress (digest : List Nat → List Nat) (isOffCurve : List Nat → Bool)
    (seeds : List (List Nat)) (programId : List Nat) : Except PdaError (List Nat) :=
  if seeds.length > MAX_SEEDS then .error .maxSeedCountExceeded
  else
    match collectSeedBytes seeds with
    | .error e => .error e
    | .ok seedBytes =>
        let addressBytes := digest (seedBytes ++ programId ++ PDA_MARKER_BYTES)
        if !isOffCurve addressBytes then .error .invalidSeeds
        else .ok addressBytes

/-! ### Transaction orchestrator (transaction.ts) -/

/-- A legacy `SignaturePubkeyPair`: a slot's public key and its optional
64-byte signature. -/
abbrev SigSlot := Addr × Option (List Nat)

inductive TxError where
  | signatureVerificationFailed : TxError
  | missingSignature : TxError
deriving DecidableEq, Repr

/-- `SerializeConfig` (transaction.ts): both fields default to `true`
when absent. -/
structure SerializeConfig where
  requireAllSignatures : Option Bool
  verifySignatures : Option Bool
deriving DecidableEq, Repr

def defaultSerializeConfig : SerializeConfig := ⟨none, none⟩

/-- `Transaction.verifySignatures` (transaction.ts lines 291-319),
parameterized by the cryptographic verifier: an empty slot fails when all
signatures are required and is skipped otherwise; a stored signature that
does not verify fails. -/
def verifySignaturesLoop (verifier : Addr → List Nat → List Nat → Bool) (msg : List Nat)
    (requireAll : Bool) : List SigSlot → Bool
  | [] => true
  | (_, none) :: rest =>
      if requireAll then false else verifySignaturesLoop verifier msg requireAll rest
  | (pk, some sig) :: rest =>
      if verifier pk sig msg then verifySignaturesLoop verifier msg requireAll rest
      else false

/-- 1-3 byte compact-u16 length prefix used by the wire format
(shortU16). -/
def shortU16Encode (n : Nat) : List Nat :=
  if n < 128 then [n]
  else if n < 16384 then [n % 128 + 128, n / 128]
  else [n % 128 + 128, (n / 128) % 128 + 128, n / 16384]

/-- Transaction wire bytes per the spec: compact-array of 64-byte
signatures (empty slots as 64 zero bytes), then the message bytes. -/
def encodeWireTransaction (slots : List SigSlot) (msg : List Nat) : List Nat :=
  shortU16Encode slots.length ++
    (slots.map (fun s => s.2.getD (List.replicate 64 0))).flatten ++ msg

/-- `Transaction.serialize` (transaction.ts lines 327-360): the message
bytes are compiled beforehand and passed in; the verification and
completeness checks mirror the source order. -/
def Transaction.serializeTx (verifier : Addr → List Nat → List Nat → Bool)
    (msg : List Nat) (slots : List SigSlot) (config : SerializeConfig) :
    Except TxError (List Nat) :=
  let requireAll := config.requireAllSignatures.getD true
  let shouldVerify := config.verifySignatures.getD true
  if shouldVerify && !verifySignaturesLoop verifier msg requireAll slots then
    .error .signatureVerificationFailed
  else if requireAll && slots.any (fun s => s.2.isNone) then
    .error .missingSignature
  else .ok (encodeWireTransaction slots msg)

/-- Legacy `Transaction.addSignature` (transaction.ts lines 273-284): the
first slot whose key matches is overwritten; with no match, a fresh slot
is appended.  It is a total function: there is no failure path. -/
def Transaction.addSignature (slots : List SigSlot) (pk : Addr) (sig : List Nat) :
    List SigSlot :=
  match slots with
  | [] => [(pk, some sig)]
  | (k, v) :: rest =>
      if k = pk then (k, some sig) :: rest
      else (k, v) :: Transaction.addSignature rest pk sig

inductive VtxError where
  | unknownSigner : VtxError
deriving DecidableEq, Repr

/-- `findIndex` over the static account keys. -/
def idxOfQ (a : Addr) : List Addr → Option Nat
  | [] => none
  | b :: rest => if b = a then some 0 else (idxOfQ a rest).map (· + 1)

/-- `VersionedTransaction.addSignature` (transaction.ts lines 552-566):
the slot index is the key's position among the static account keys;
missing keys, or positions beyond the signature array, raise
"Unknown signer". -/
def VersionedTransaction.addSignature (staticKeys : List Addr) (sigs : List (List Nat))
    (pk : Addr) (sig : List Nat) : Except VtxError (List (List Nat)) :=
  match idxOfQ pk staticKeys with
  | none => .error .unknownSigner
  | some i => if i ≥ sigs.length then .error .unknownSigner else .ok (sigs.set i sig)

/-! ### Helper lemmas for the orchestrator theorems -/

theorem verifyLoop_false_of_empty (verifier : Addr → List Nat → List Nat → Bool)
    (msg : List Nat) (slots : List SigSlot) (h : ∃ s ∈ slots, s.2 = none) :
    verifySignaturesLoop verifier msg true slots = false := by
  induction slots with
  | nil => obtain ⟨s, hs, _⟩ := h; cases hs
  | cons p rest ih =>
      obtain ⟨k, v⟩ := p
      cases v with
      | none => simp [verifySignaturesLoop]
      | some sig =>
          rw [verifySignaturesLoop]
          obtain ⟨s, hs, hnone⟩ := h
          rcases List.mem_cons.mp hs with heq | hmem
          · rw [heq] at hnone; cases hnone
          · by_cases hv : verifier k sig msg
            · rw [if_pos hv]; exact ih ⟨s, hmem, hnone⟩
            · rw [if_neg hv]

theorem noEmpty_of_verifyLoop_true (verifier : Addr → List Nat → List Nat → Bool)
    (msg : List Nat) (slots : List SigSlot)
    (h : verifySignaturesLoop verifier msg true slots = true) :
    slots.any (fun s => s.2.isNone) = false := by
  induction slots with
  | nil => rfl
  | cons p rest ih =>
      obtain ⟨k, v⟩ := p
      cases v with
      | none => rw [verifySignaturesLoop] at h; simp at h
      | some sig =>
          rw [verifySignaturesLoop] at h
          by_cases hv : verifier k sig msg
          · rw [if_pos hv] at h
            simp only [List.any_cons, Option.isNone_some, Bool.false_or]
            exact ih h
          · rw [if_neg hv] at h; cases h

theorem idxOfQ_ge_of_not_mem_take (pk : Addr) (keys : List Addr) :
    ∀ (n i : Nat), pk ∉ keys.take n → idxOfQ pk keys = some i → n ≤ i := by
  induction keys with
  | nil => intro n i _ hidx; cases hidx
  | cons b rest ih =>
      intro n i hmem hidx
      rw [idxOfQ] at hidx
      by_cases hb : b = pk
      · rw [if_pos hb] at hidx
        cases hidx
        cases n with
        | zero => exact Nat.zero_le _
        | succ n' =>
            exfalso
            apply hmem
            rw [List.take_succ_cons, hb]
            exact List.mem_cons_self _ _
      · rw [if_neg hb] at hidx
        cases hj : idxOfQ pk rest with
        | none => rw [hj] at hidx; cases hidx
        | some j =>
            rw [hj] at hidx
            cases hidx
            cases n with
            | zero => exact Nat.zero_le _
            | succ n' =>
                have hmem' : pk ∉ rest.take n' := by
                  intro hc
                  apply hmem
                  rw [List.take_succ_cons]
                  exact List.mem_cons_of_mem _ hc
                exact Nat.succ_le_succ (ih n' j hmem' hj)

/-! ### Claims C5, C7, C8, C9, C10 -/

/-- C5 counterexample: the claim says every first byte with bit 7 set
(0x80-0xFF) is classified as versioned with the version from bits 0-6, so
0x81 should give version 1; the code classifies 0x81 as legacy. -/
theorem version_detection_cex :
    deserializeMessageVersion 129 = MsgVersion.legacy ∧
      MsgVersion.legacy ≠ MsgVersion.versioned 1 := by decide

/-- C5 (amended): of the first bytes with bit 7 set, only 0x80 is
classified as versioned (version 0); every other first byte, 0x00-0x7F
and 0x81-0xFF alike, is classified as legacy. -/
theorem version_detection_only_v0 :
    ∀ b : Nat, b < 256 →
      deserializeMessageVersion b =
        if b = 128 then MsgVersion.versioned 0 else MsgVersion.legacy := by decide

/-- Witness for `version_detection_only_v0` at bytes 0x80 and 0x81. -/
theorem version_detection_only_v0_witness :
    deserializeMessageVersion 128 = MsgVersion.versioned 0 ∧
      deserializeMessageVersion 129 = MsgVersion.legacy := by
  refine ⟨?_, ?_⟩
  · have h := version_detection_only_v0 128 (by decide)
    simpa using h
  · have h := version_detection_only_v0 129 (by decide)
    simpa using h

theorem collectSeedBytes_spec (seeds : List (List Nat)) :
    collectSeedBytes seeds =
      if seeds.any (fun s => s.length > MAX_SEED_LENGTH) then
        Except.error PdaError.maxSeedLengthExceeded
      else Except.ok seeds.flatten := by
  induction seeds with
  | nil => rfl
  | cons s rest ih =>
      rw [collectSeedBytes, ih]
      by_cases hs : s.length > MAX_SEED_LENGTH
      · simp [hs]
      · by_cases hr : rest.any (fun t => decide (t.length > MAX_SEED_LENGTH)) = true
        · simp [hs, hr]
        · simp [hs, hr]

/-- C7: `createProgramAddress` fails on more than 16 seeds or any seed
longer than 32 bytes; otherwise it digests the seed bytes, then the
program address bytes, then the fixed 21-byte ASCII marker
"ProgramDerivedAddress", fails with InvalidSeeds when the digest is not
off-curve, and returns the digest otherwise. -/
theorem createProgramAddress_spec (digest : List Nat → List Nat)
    (isOffCurve : List Nat → Bool) (seeds : List (List Nat)) (programId : List Nat) :
    (createProgramAddress digest isOffCurve seeds programId =
      if seeds.length > 16 then Except.error PdaError.maxSeedCountExceeded
      else if seeds.any (fun s => s.length > 32) then
        Except.error PdaError.maxSeedLengthExceeded
      else if isOffCurve (digest (seeds.flatten ++ programId ++ PDA_MARKER_BYTES)) then
        Except.ok (digest (seeds.flatten ++ programId ++ PDA_MARKER_BYTES))
      else Except.error PdaError.invalidSeeds) ∧
    PDA_MARKER_BYTES = ("ProgramDerivedAddress").data.map Char.toNat ∧
    PDA_MARKER_BYTES.length = 21 := by
  refine ⟨?_, by decide, by decide⟩
  rw [createProgramAddress]
  by_cases hc : seeds.length > MAX_SEEDS
  · rw [if_pos hc]
    rw [if_pos (show seeds.length > 16 from hc)]
  · rw [if_neg hc]
    rw [if_neg (show ¬seeds.length > 16 from hc)]
    rw [collectSeedBytes_spec]
    by_cases hl : seeds.any (fun s => s.length > MAX_SEED_LENGTH)
    · rw [if_pos hl, if_pos (show (seeds.any fun s => s.length > 32) = true from hl)]
    · rw [if_neg hl, if_neg (show ¬(seeds.any fun s => s.length > 32) = true from hl)]
      show (if !isOffCurve (digest (seeds.flatten ++ programId ++ PDA_MARKER_BYTES)) then
              Except.error PdaError.invalidSeeds
            else Except.ok (digest (seeds.flatten ++ programId ++ PDA_MARKER_BYTES))) = _
      by_cases ho : isOffCurve (digest (seeds.flatten ++ programId ++ PDA_MARKER_BYTES)) = true
      · have hb : (!isOffCurve (digest (seeds.flatten ++ programId ++ PDA_MARKER_BYTES))) = false := by
          rw [ho]; rfl
        rw [hb, if_pos ho, if_neg Bool.false_ne_true]
      · have hbf : isOffCurve (digest (seeds.flatten ++ programId ++ PDA_MARKER_BYTES)) = false :=
          Bool.eq_false_iff.mpr ho
        have hb : (!isOffCurve (digest (seeds.flatten ++ programId ++ PDA_MARKER_BYTES))) = true := by
          rw [hbf]; rfl
        rw [hb, if_pos rfl, if_neg ho]

/-- C8 counterexample: with default configuration and an empty required
slot, `serialize` fails with SignatureVerificationFailed (the
verification check runs first), not with MissingSignature as claimed. -/
theorem serialize_missing_signature_cex :
    Transaction.serializeTx (fun _ _ _ => true) [] [([1], none)] defaultSerializeConfig =
      Except.error TxError.signatureVerificationFailed ∧
    TxError.signatureVerificationFailed ≠ TxError.missingSignature := by
  constructor
  · rfl
  · decide

/-- C8 (amended): with default configuration, `serialize` produces wire
bytes exactly when `verifySignatures(true)` passes, and an empty required
slot fails with SignatureVerificationFailed; MissingSignature is raised
for an empty required slot only when signature verification was
explicitly waived while completeness was not. -/
theorem serialize_verification_behavior :
    (∀ (verifier : Addr → List Nat → List Nat → Bool) (msg : List Nat)
        (slots : List SigSlot),
      Transaction.serializeTx verifier msg slots defaultSerializeConfig =
        if verifySignaturesLoop verifier msg true slots then
          Except.ok (encodeWireTransaction slots msg)
        else Except.error TxError.signatureVerificationFailed) ∧
    (∀ (verifier : Addr → List Nat → List Nat → Bool) (msg : List Nat)
        (slots : List SigSlot), (∃ s ∈ slots, s.2 = none) →
      Transaction.serializeTx verifier msg slots defaultSerializeConfig =
        Except.error TxError.signatureVerificationFailed) ∧
    (∀ (verifier : Addr → List Nat → List Nat → Bool) (msg : List Nat)
        (slots : List SigSlot), (∃ s ∈ slots, s.2 = none) →
      Transaction.serializeTx verifier msg slots ⟨none, some false⟩ =
        Except.error TxError.missingSignature) := by
  refine ⟨?_, ?_, ?_⟩
  · intro verifier msg slots
    rw [Transaction.serializeTx]
    simp only [defaultSerializeConfig, Option.getD_none, Bool.true_and]
    by_cases hv : verifySignaturesLoop verifier msg true slots
    · rw [if_pos hv]
      have hne := noEmpty_of_verifyLoop_true verifier msg slots hv
      simp [hv, hne]
    · simp [hv]
  · intro verifier msg slots h
    rw [Transaction.serializeTx]
    simp only [defaultSerializeConfig, Option.getD_none, Bool.true_and]
    have hv := verifyLoop_false_of_empty verifier msg slots h
    simp [hv]
  · intro verifier msg slots h
    rw [Transaction.serializeTx]
    simp only [Option.getD_none, Option.getD_some, Bool.false_and, Bool.true_and]
    have hany : slots.any (fun s => s.2.isNone) = true := by
      obtain ⟨s, hs, hnone⟩ := h
      exact List.any_eq_true.mpr ⟨s, hs, by rw [hnone]; rfl⟩
    simp [hany]

/-- Witness for `serialize_verification_behavior` at a one-empty-slot
transaction. -/
theorem serialize_verification_behavior_witness :
    Transaction.serializeTx (fun _ _ _ => true) [] [([1], none)] defaultSerializeConfig =
      Except.error TxError.signatureVerificationFailed ∧
    Transaction.serializeTx (fun _ _ _ => true) [] [([1], none)] ⟨none, some false⟩ =
      Except.error TxError.missingSignature := by
  constructor
  · exact serialize_verification_behavior.2.1 (fun _ _ _ => true) [] [([1], none)]
      ⟨([1], none), List.mem_cons_self _ _, rfl⟩
  · exact serialize_verification_behavior.2.2 (fun _ _ _ => true) [] [([1], none)]
      ⟨([1], none), List.mem_cons_self _ _, rfl⟩

/-- C9: compiling an empty instruction list with fee payer P yields a
fee-payer-only message: static accounts exactly [P], header {1, 0, 0},
and no compiled instructions. -/
theorem compile_empty_instructions (payerKey : Addr) (recentBlockhash : List Nat) :
    Message.compile [] payerKey recentBlockhash =
      { header :=
          { numRequiredSignatures := 1
            numReadonlySignedAccounts := 0
            numReadonlyUnsignedAccounts := 0 }
        accountKeys := [payerKey]
        recentBlockhash := recentBlockhash
        instructions := [] } := rfl

/-- C10: legacy `Transaction.addSignature` never fails — an unknown
pubkey appends a fresh slot at the end of the signatures array — whereas
`VersionedTransaction.addSignature` raises "Unknown signer" for every
pubkey outside the message's static signer accounts (the first
`signatures.length` static keys). -/
theorem addSignature_unknown_key :
    (∀ (slots : List SigSlot) (pk : Addr) (sig : List Nat),
      (∀ s ∈ slots, s.1 ≠ pk) →
      Transaction.addSignature slots pk sig = slots ++ [(pk, some sig)]) ∧
    (∀ (staticKeys : List Addr) (sigs : List (List Nat)) (pk : Addr) (sig : List Nat),
      pk ∉ staticKeys.take sigs.length →
      VersionedTransaction.addSignature staticKeys sigs pk sig =
        Except.error VtxError.unknownSigner) := by
  constructor
  · intro slots pk sig h
    induction slots with
    | nil => rfl
    | cons p rest ih =>
        obtain ⟨k, v⟩ := p
        rw [Transaction.addSignature]
        have hk : k ≠ pk := h (k, v) (List.mem_cons_self _ _)
        rw [if_neg hk, List.cons_append]
        rw [ih (fun s hs => h s (List.mem_cons_of_mem _ hs))]
  · intro staticKeys sigs pk sig h
    rw [VersionedTransaction.addSignature]
    cases hidx : idxOfQ pk staticKeys with
    | none => rfl
    | some i =>
        have hge := idxOfQ_ge_of_not_mem_take pk staticKeys sigs.length i h hidx
        show (if i ≥ sigs.length then Except.error VtxError.unknownSigner
              else Except.ok (sigs.set i sig)) = Except.error VtxError.unknownSigner
        rw [if_pos hge]

/-- Witness for `addSignature_unknown_key` on concrete slots and keys. -/
theorem addSignature_unknown_key_witness :
    Transaction.addSignature [([1], none)] [2] [7] = [([1], none), ([2], some [7])] ∧
    VersionedTransaction.addSignature [[1], [2]] [[0]] [2] [7] =
      Except.error VtxError.unknownSigner := by
  constructor
  · exact addSignature_unknown_key.1 [([1], none)] [2] [7] (by decide)
  · exact addSignature_unknown_key.2 [[1], [2]] [[0]] [2] [7] (by decide)

/-! ### Invariants of the account-map construction -/

theorem foldl_preserve {δ : Type u} {γ : Type v} {P : δ → Prop} (step : δ → γ → δ)
    (h : ∀ m x, P m → P (step m x)) :
    ∀ (l : List γ) (m : δ), P m → P (l.foldl step m) := by
  intro l
  induction l with
  | nil => intro m hm; exact hm
  | cons x rest ih => intro m hm; exact ih (step m x) (h m x hm)

theorem foldl_preserve_mem {δ : Type u} {γ : Type v} {P : δ → Prop} {Q : γ → Prop}
    (step : δ → γ → δ) (h : ∀ m x, Q x → P m → P (step m x)) :
    ∀ (l : List γ), (∀ x ∈ l, Q x) → ∀ (m : δ), P m → P (l.foldl step m) := by
  intro l
  induction l with
  | nil => intro _ m hm; exact hm
  | cons x rest ih =>
      intro hQ m hm
      exact ih (fun y hy => hQ y (List.mem_cons_of_mem _ hy)) (step m x)
        (h m x (hQ x (List.mem_cons_self _ _)) hm)

theorem upsert_preserve_valueP {β : Type u} (P : β → Prop) (k : Addr) (f : β → β) (i : β)
    (m : List (Addr × β)) (h : ∀ p ∈ m, P p.2) (hi : P i) (hf : ∀ v, P v → P (f v)) :
    ∀ p ∈ upsert k f i m, P p.2 := by
  induction m with
  | nil =>
      intro p hp
      rw [upsert] at hp
      rcases List.mem_singleton.mp hp with rfl
      exact hi
  | cons q rest ih =>
      obtain ⟨k', v⟩ := q
      intro p hp
      rw [upsert] at hp
      by_cases hk : k' = k
      · rw [if_pos hk] at hp
        rcases List.mem_cons.mp hp with rfl | hmem
        · exact hf v (h (k', v) (List.mem_cons_self _ _))
        · exact h p (List.mem_cons_of_mem _ hmem)
      · rw [if_neg hk] at hp
        rcases List.mem_cons.mp hp with rfl | hmem
        · exact h (k', v) (List.mem_cons_self _ _)
        · exact ih (fun q hq => h q (List.mem_cons_of_mem _ hq)) p hmem

/-- The map's first entry is the fee payer and its value satisfies `P`. -/
def headIs (payer : Addr) (P : β → Prop) (m : List (Addr × β)) : Prop :=
  ∃ v t, m = (payer, v) :: t ∧ P v

theorem headIs_upsert {payer : Addr} {P : β → Prop} {m : List (Addr × β)}
    (h : headIs payer P m) (k : Addr) (f : β → β) (i : β)
    (hf : ∀ v, P v → P (f v)) : headIs payer P (upsert k f i m) := by
  obtain ⟨v, t, rfl, hv⟩ := h
  rw [upsert]
  by_cases hk : payer = k
  · rw [if_pos hk]
    exact ⟨f v, t, rfl, hf v hv⟩
  · rw [if_neg hk]
    exact ⟨v, upsert k f i t, rfl, hv⟩

theorem nodupKeys_legacyAccountMap (payerKey : Addr) (ixs : List TransactionInstruction) :
    NodupKeys (legacyAccountMap payerKey ixs) := by
  refine foldl_preserve legacyProcessIx ?_ ixs _ ?_
  · intro m ix hm
    rw [legacyProcessIx]
    refine foldl_preserve _ ?_ ix.keys _ (nodupKeys_upsert _ _ _ _ hm)
    intro m' meta hm'
    exact nodupKeys_upsert _ _ _ _ hm'
  · rw [NodupKeys]
    exact List.pairwise_singleton _ _

theorem legacy_headIs (payerKey : Addr) (ixs : List TransactionInstruction) :
    headIs payerKey (fun r : LegacyRole => r.isSigner = true ∧ r.isWritable = true)
      (legacyAccountMap payerKey ixs) := by
  refine foldl_preserve legacyProcessIx ?_ ixs _ ⟨⟨true, true⟩, [], rfl, rfl, rfl⟩
  intro m ix hm
  rw [legacyProcessIx]
  refine foldl_preserve _ ?_ ix.keys _ (headIs_upsert hm _ _ _ (fun v hv => hv))
  intro m' meta hm'
  refine headIs_upsert hm' _ _ _ ?_
  intro v hv
  rw [legacyMergeMeta, hv.1, hv.2]
  exact ⟨rfl, rfl⟩

theorem nodupKeys_v0AccountMap (tables : List AddressLookupTableAccount) (payerKey : Addr)
    (ixs : List TransactionInstruction) : NodupKeys (v0AccountMap tables payerKey ixs) := by
  refine foldl_preserve (v0ProcessIx (lookupMapOf tables)) ?_ ixs _ ?_
  · intro m ix hm
    rw [v0ProcessIx]
    refine foldl_preserve _ ?_ ix.keys _ (nodupKeys_upsert _ _ _ _ hm)
    intro m' meta hm'
    exact nodupKeys_upsert _ _ _ _ hm'
  · rw [NodupKeys]
    exact List.pairwise_singleton _ _

theorem v0_headIs (tables : List AddressLookupTableAccount) (payerKey : Addr)
    (ixs : List TransactionInstruction) :
    headIs payerKey
      (fun e : AccountEntry =>
        e.isSigner = true ∧ e.isWritable = true ∧ e.fromLookup = none)
      (v0AccountMap tables payerKey ixs) := by
  refine foldl_preserve (v0ProcessIx (lookupMapOf tables)) ?_ ixs _
    ⟨⟨true, true, none⟩, [], rfl, rfl, rfl, rfl⟩
  intro m ix hm
  rw [v0ProcessIx]
  refine foldl_preserve _ ?_ ix.keys _ (headIs_upsert hm _ _ _ (fun v hv => hv))
  intro m' meta hm'
  refine headIs_upsert hm' _ _ _ ?_
  intro v hv
  rw [v0MergeMeta, hv.1, hv.2.1]
  refine ⟨rfl, rfl, ?_⟩
  rw [hv.2.2]
  by_cases hs : meta.isSigner = true
  · rw [if_pos hs]
  · rw [if_neg hs]

/-- Every entry assigned to lookup has a non-signer final role ("signers
must be static"; a signer meta deletes `fromLookup`). -/
theorem v0_lookup_entries_non_signer (tables : List AddressLookupTableAccount)
    (payerKey : Addr) (ixs : List TransactionInstruction) :
    ∀ p ∈ v0AccountMap tables payerKey ixs,
      p.2.fromLookup.isSome = true → p.2.isSigner = false := by
  have key : ∀ (m : List (Addr × AccountEntry)),
      (∀ p ∈ m, p.2.fromLookup.isSome = true → p.2.isSigner = false) →
      ∀ ix, ∀ p ∈ v0ProcessIx (lookupMapOf tables) m ix,
        p.2.fromLookup.isSome = true → p.2.isSigner = false := by
    intro m hm ix
    rw [v0ProcessIx]
    have hprog : ∀ p ∈ upsert ix.programId id ⟨false, false, none⟩ m,
        p.2.fromLookup.isSome = true → p.2.isSigner = false := by
      refine upsert_preserve_valueP
        (fun e : AccountEntry => e.fromLookup.isSome = true → e.isSigner = false)
        _ _ _ _ hm ?_ (fun v hv => hv)
      intro h
      cases h
    refine foldl_preserve
      (P := fun m' : List (Addr × AccountEntry) =>
        ∀ p ∈ m', p.2.fromLookup.isSome = true → p.2.isSigner = false)
      _ ?_ ix.keys _ hprog
    intro m' meta hm'
    refine upsert_preserve_valueP
      (fun e : AccountEntry => e.fromLookup.isSome = true → e.isSigner = false)
      _ _ _ _ hm' ?_ ?_
    · rw [v0InsertMeta]
      by_cases hs : meta.isSigner = true
      · rw [if_pos hs]
        intro h
        cases h
      · rw [if_neg hs]
        intro _
        simpa using hs
    · intro v hv
      rw [v0MergeMeta]
      by_cases hs : meta.isSigner = true
      · rw [if_pos hs]
        intro h
        cases h
      · rw [if_neg hs]
        intro h
        have h1 := hv h
        have h2 : meta.isSigner = false := by simpa using hs
        rw [h1, h2]
        rfl
  refine foldl_preserve (v0ProcessIx (lookupMapOf tables)) (fun m ix hm => key m hm ix) ixs _ ?_
  intro p hp h
  rcases List.mem_singleton.mp hp with rfl
  cases h

/-! ### Claim C1: four-bucket static ordering -/

/-- The bucket of a final merged role: writable signers (0), readonly
signers (1), writable non-signers (2), readonly non-signers (3). -/
def bucketRank (isSigner isWritable : Bool) : Nat :=
  if isSigner then (if isWritable then 0 else 1) else (if isWritable then 2 else 3)

/-- The bucket of an address in a legacy compilation, from its final
merged role. -/
def legacyRankOf (payerKey : Addr) (ixs : List TransactionInstruction) (a : Addr) : Nat :=
  bucketRank (legacyFinalRole payerKey ixs a).isSigner
    (legacyFinalRole payerKey ixs a).isWritable

/-- The bucket of an address in a v0 compilation, from its final merged
role. -/
def v0RankOf (tables : List AddressLookupTableAccount) (payerKey : Addr)
    (ixs : List TransactionInstruction) (a : Addr) : Nat :=
  bucketRank (v0FinalEntry tables payerKey ixs a).isSigner
    (v0FinalEntry tables payerKey ixs a).isWritable

theorem legacyFinalRole_of_mem (payerKey : Addr) (ixs : List TransactionInstruction)
    {a : Addr} {r : LegacyRole} (h : (a, r) ∈ legacyAccountMap payerKey ixs) :
    legacyFinalRole payerKey ixs a = r := by
  rw [legacyFinalRole, alookup_eq_some_of_mem (nodupKeys_legacyAccountMap payerKey ixs) h]
  rfl

theorem v0FinalEntry_of_mem (tables : List AddressLookupTableAccount) (payerKey : Addr)
    (ixs : List TransactionInstruction) {a : Addr} {e : AccountEntry}
    (h : (a, e) ∈ v0AccountMap tables payerKey ixs) :
    v0FinalEntry tables payerKey ixs a = e := by
  rw [v0FinalEntry, alookup_eq_some_of_mem (nodupKeys_v0AccountMap tables payerKey ixs) h]
  rfl

theorem pairwise_le_of_buckets {α : Type u} (f : α → Nat) (l₁ l₂ l₃ l₄ : List α)
    (h₁ : ∀ x ∈ l₁, f x = 0) (h₂ : ∀ x ∈ l₂, f x = 1) (h₃ : ∀ x ∈ l₃, f x = 2)
    (h₄ : ∀ x ∈ l₄, f x = 3) :
    (l₁ ++ l₂ ++ l₃ ++ l₄).Pairwise (fun x y => f x ≤ f y) := by
  have mono : ∀ (l : List α) (c : Nat), (∀ x ∈ l, f x = c) →
      l.Pairwise (fun x y => f x ≤ f y) := by
    intro l c h
    induction l with
    | nil => exact List.Pairwise.nil
    | cons x rest ih =>
        refine List.Pairwise.cons ?_ (ih (fun y hy => h y (List.mem_cons_of_mem _ hy)))
        intro y hy
        rw [h x (List.mem_cons_self _ _), h y (List.mem_cons_of_mem _ hy)]
  rw [List.pairwise_append]
  refine ⟨?_, mono l₄ 3 h₄, ?_⟩
  · rw [List.pairwise_append]
    refine ⟨?_, mono l₃ 2 h₃, ?_⟩
    · rw [List.pairwise_append]
      refine ⟨mono l₁ 0 h₁, mono l₂ 1 h₂, ?_⟩
      intro a ha b hb
      rw [h₁ a ha, h₂ b hb]
      omega
    · intro a ha b hb
      rw [h₃ b hb]
      rcases List.mem_append.mp ha with ha' | ha'
      · rw [h₁ a ha']; omega
      · rw [h₂ a ha']; omega
  · intro a ha b hb
    rw [h₄ b hb]
    rcases List.mem_append.mp ha with ha' | ha'
    · rcases List.mem_append.mp ha' with ha'' | ha''
      · rw [h₁ a ha'']; omega
      · rw [h₂ a ha'']; omega
    · rw [h₃ a ha']; omega

/-- C1: In every compiled message, legacy or v0, the static account list
is ordered by final-merged-role bucket: writable signers, readonly
signers, writable non-signers, readonly non-signers.  No static index of
a later bucket precedes an index of an earlier bucket. -/
theorem static_bucket_ordering (payerKey : Addr) (ixs : List TransactionInstruction)
    (recentBlockhash : List Nat) (tables : List AddressLookupTableAccount) :
    (Message.compile ixs payerKey recentBlockhash).accountKeys.Pairwise
      (fun a b => legacyRankOf payerKey ixs a ≤ legacyRankOf payerKey ixs b) ∧
    (MessageV0.compile ixs payerKey recentBlockhash tables).staticAccountKeys.Pairwise
      (fun a b =>
        v0RankOf tables payerKey ixs a ≤ v0RankOf tables payerKey ixs b) := by
  constructor
  · show ((legacyOrderedAccounts payerKey ixs).map Prod.fst).Pairwise _
    rw [List.pairwise_map, legacyOrderedAccounts]
    refine pairwise_le_of_buckets
      (fun x : Addr × LegacyRole => legacyRankOf payerKey ixs x.1) _ _ _ _
      ?_ ?_ ?_ ?_
    all_goals
      intro x hx
      obtain ⟨hmem, hpred⟩ := List.mem_filter.mp hx
      simp only [legacyRankOf]
      rw [legacyFinalRole_of_mem payerKey ixs (a := x.1) (r := x.2) (by exact hmem)]
      rw [Bool.and_eq_true] at hpred
      try simp only [Bool.not_eq_true'] at hpred
      simp [bucketRank, hpred.1, hpred.2]
  · show ((v0OrderedStatic tables payerKey ixs).map Prod.fst).Pairwise _
    rw [List.pairwise_map, v0OrderedStatic]
    refine pairwise_le_of_buckets
      (fun x : Addr × AccountEntry => v0RankOf tables payerKey ixs x.1) _ _ _ _
      ?_ ?_ ?_ ?_
    all_goals
      intro x hx
      obtain ⟨hmem, hpred⟩ := List.mem_filter.mp hx
      have hmem' : (x.1, x.2) ∈ v0AccountMap tables payerKey ixs :=
        List.mem_of_mem_filter (by exact hmem)
      simp only [v0RankOf]
      rw [v0FinalEntry_of_mem tables payerKey ixs hmem']
      rw [Bool.and_eq_true] at hpred
      try simp only [Bool.not_eq_true'] at hpred
      simp [bucketRank, hpred.1, hpred.2]

/-! ### Claim C2: header counts and the fee payer at static index 0 -/

theorem legacy_ws_flags (payerKey : Addr) (ixs : List TransactionInstruction) :
    ∀ x ∈ legacyWritableSigners payerKey ixs,
      (legacyFinalRole payerKey ixs x.1).isSigner = true ∧
        (legacyFinalRole payerKey ixs x.1).isWritable = true := by
  intro x hx
  obtain ⟨hmem, hpred⟩ := List.mem_filter.mp hx
  rw [legacyFinalRole_of_mem payerKey ixs (a := x.1) (r := x.2) (by exact hmem)]
  rw [Bool.and_eq_true] at hpred
  exact hpred

theorem legacy_rs_flags (payerKey : Addr) (ixs : List TransactionInstruction) :
    ∀ x ∈ legacyReadonlySigners payerKey ixs,
      (legacyFinalRole payerKey ixs x.1).isSigner = true ∧
        (legacyFinalRole payerKey ixs x.1).isWritable = false := by
  intro x hx
  obtain ⟨hmem, hpred⟩ := List.mem_filter.mp hx
  rw [legacyFinalRole_of_mem payerKey ixs (a := x.1) (r := x.2) (by exact hmem)]
  rw [Bool.and_eq_true] at hpred
  simp only [Bool.not_eq_true'] at hpred
  exact hpred

theorem legacy_wn_flags (payerKey : Addr) (ixs : List TransactionInstruction) :
    ∀ x ∈ legacyWritableNonSigners payerKey ixs,
      (legacyFinalRole payerKey ixs x.1).isSigner = false ∧
        (legacyFinalRole payerKey ixs x.1).isWritable = true := by
  intro x hx
  obtain ⟨hmem, hpred⟩ := List.mem_filter.mp hx
  rw [legacyFinalRole_of_mem payerKey ixs (a := x.1) (r := x.2) (by exact hmem)]
  rw [Bool.and_eq_true] at hpred
  simp only [Bool.not_eq_true'] at hpred
  exact hpred

theorem legacy_rn_flags (payerKey : Addr) (ixs : List TransactionInstruction) :
    ∀ x ∈ legacyReadonlyNonSigners payerKey ixs,
      (legacyFinalRole payerKey ixs x.1).isSigner = false ∧
        (legacyFinalRole payerKey ixs x.1).isWritable = false := by
  intro x hx
  obtain ⟨hmem, hpred⟩ := List.mem_filter.mp hx
  rw [legacyFinalRole_of_mem payerKey ixs (a := x.1) (r := x.2) (by exact hmem)]
  rw [Bool.and_eq_true] at hpred
  simp only [Bool.not_eq_true'] at hpred
  exact hpred

theorem v0FinalEntry_of_mem_static (tables : List AddressLookupTableAccount)
    (payerKey : Addr) (ixs : List TransactionInstruction) {x : Addr × AccountEntry}
    {pred : Addr × AccountEntry → Bool}
    (hx : x ∈ (v0StaticAccounts tables payerKey ixs).filter pred) :
    v0FinalEntry tables payerKey ixs x.1 = x.2 ∧ pred x = true := by
  obtain ⟨hmem, hpred⟩ := List.mem_filter.mp hx
  have hmem' : (x.1, x.2) ∈ v0AccountMap tables payerKey ixs :=
    List.mem_of_mem_filter (by exact hmem)
  exact ⟨v0FinalEntry_of_mem tables payerKey ixs hmem', hpred⟩

theorem v0_ws_flags (tables : List AddressLookupTableAccount) (payerKey : Addr)
    (ixs : List TransactionInstruction) :
    ∀ x ∈ v0WritableSigners tables payerKey ixs,
      (v0FinalEntry tables payerKey ixs x.1).isSigner = true ∧
        (v0FinalEntry tables payerKey ixs x.1).isWritable = true := by
  intro x hx
  obtain ⟨hrole, hpred⟩ := v0FinalEntry_of_mem_static tables payerKey ixs hx
  rw [hrole, Bool.and_eq_true] at *
  exact hpred

theorem v0_rs_flags (tables : List AddressLookupTableAccount) (payerKey : Addr)
    (ixs : List TransactionInstruction) :
    ∀ x ∈ v0ReadonlySigners tables payerKey ixs,
      (v0FinalEntry tables payerKey ixs x.1).isSigner = true ∧
        (v0FinalEntry tables payerKey ixs x.1).isWritable = false := by
  intro x hx
  obtain ⟨hrole, hpred⟩ := v0FinalEntry_of_mem_static tables payerKey ixs hx
  rw [Bool.and_eq_true] at hpred
  simp only [Bool.not_eq_true'] at hpred
  rw [hrole]
  exact hpred

theorem v0_wn_flags (tables : List AddressLookupTableAccount) (payerKey : Addr)
    (ixs : List TransactionInstruction) :
    ∀ x ∈ v0WritableNonSigners tables payerKey ixs,
      (v0FinalEntry tables payerKey ixs x.1).isSigner = false ∧
        (v0FinalEntry tables payerKey ixs x.1).isWritable = true := by
  intro x hx
  obtain ⟨hrole, hpred⟩ := v0FinalEntry_of_mem_static tables payerKey ixs hx
  rw [Bool.and_eq_true] at hpred
  simp only [Bool.not_eq_true'] at hpred
  rw [hrole]
  exact hpred

theorem v0_rn_flags (tables : List AddressLookupTableAccount) (payerKey : Addr)
    (ixs : List TransactionInstruction) :
    ∀ x ∈ v0ReadonlyNonSigners tables payerKey ixs,
      (v0FinalEntry tables payerKey ixs x.1).isSigner = false ∧
        (v0FinalEntry tables payerKey ixs x.1).isWritable = false := by
  intro x hx
  obtain ⟨hrole, hpred⟩ := v0FinalEntry_of_mem_static tables payerKey ixs hx
  rw [Bool.and_eq_true] at hpred
  simp only [Bool.not_eq_true'] at hpred
  rw [hrole]
  exact hpred

/-- C2: For both compilers, numRequiredSignatures counts exactly the
static accounts whose final merged role is signer, numReadonlySigned the
static readonly signers, numReadonlyUnsigned the static readonly
non-signers; the fee payer occupies static index 0 with final merged role
signer+writable. -/
theorem header_counts_and_fee_payer (payerKey : Addr) (ixs : List TransactionInstruction)
    (recentBlockhash : List Nat) (tables : List AddressLookupTableAccount) :
    ((Message.compile ixs payerKey recentBlockhash).header.numRequiredSignatures =
        (Message.compile ixs payerKey recentBlockhash).accountKeys.countP
          (fun a => (legacyFinalRole payerKey ixs a).isSigner) ∧
      (Message.compile ixs payerKey recentBlockhash).header.numReadonlySignedAccounts =
        (Message.compile ixs payerKey recentBlockhash).accountKeys.countP
          (fun a => (legacyFinalRole payerKey ixs a).isSigner &&
            !(legacyFinalRole payerKey ixs a).isWritable) ∧
      (Message.compile ixs payerKey recentBlockhash).header.numReadonlyUnsignedAccounts =
        (Message.compile ixs payerKey recentBlockhash).accountKeys.countP
          (fun a => !(legacyFinalRole payerKey ixs a).isSigner &&
            !(legacyFinalRole payerKey ixs a).isWritable) ∧
      (Message.compile ixs payerKey recentBlockhash).accountKeys.head? = some payerKey ∧
      (legacyFinalRole payerKey ixs payerKey).isSigner = true ∧
      (legacyFinalRole payerKey ixs payerKey).isWritable = true) ∧
    ((MessageV0.compile ixs payerKey recentBlockhash tables).header.numRequiredSignatures =
        (MessageV0.compile ixs payerKey recentBlockhash tables).staticAccountKeys.countP
          (fun a => (v0FinalEntry tables payerKey ixs a).isSigner) ∧
      (MessageV0.compile ixs payerKey recentBlockhash tables).header.numReadonlySignedAccounts =
        (MessageV0.compile ixs payerKey recentBlockhash tables).staticAccountKeys.countP
          (fun a => (v0FinalEntry tables payerKey ixs a).isSigner &&
            !(v0FinalEntry tables payerKey ixs a).isWritable) ∧
      (MessageV0.compile ixs payerKey recentBlockhash tables).header.numReadonlyUnsignedAccounts =
        (MessageV0.compile ixs payerKey recentBlockhash tables).staticAccountKeys.countP
          (fun a => !(v0FinalEntry tables payerKey ixs a).isSigner &&
            !(v0FinalEntry tables payerKey ixs a).isWritable) ∧
      (MessageV0.compile ixs payerKey recentBlockhash tables).staticAccountKeys.head? =
        some payerKey ∧
      (v0FinalEntry tables payerKey ixs payerKey).isSigner = true ∧
      (v0FinalEntry tables payerKey ixs payerKey).isWritable = true) := by
  obtain ⟨pv, pt, hpeq, hpv⟩ := legacy_headIs payerKey ixs
  obtain ⟨qv, qt, hqeq, hqv⟩ := v0_headIs tables payerKey ixs
  have hprole : legacyFinalRole payerKey ixs payerKey = pv := by
    rw [legacyFinalRole, hpeq, alookup, if_pos rfl]
    rfl
  have hqrole : v0FinalEntry tables payerKey ixs payerKey = qv := by
    rw [v0FinalEntry, hqeq, alookup, if_pos rfl]
    rfl
  refine ⟨⟨?_, ?_, ?_, ?_, ?_, ?_⟩, ⟨?_, ?_, ?_, ?_, ?_, ?_⟩⟩
  · show (legacyWritableSigners payerKey ixs).length +
        (legacyReadonlySigners payerKey ixs).length =
      ((legacyOrderedAccounts payerKey ixs).map Prod.fst).countP _
    rw [List.countP_map, legacyOrderedAccounts, List.countP_append, List.countP_append,
      List.countP_append]
    rw [List.countP_eq_length.mpr
        (fun x hx => by simpa using (legacy_ws_flags payerKey ixs x hx).1),
      List.countP_eq_length.mpr
        (fun x hx => by simpa using (legacy_rs_flags payerKey ixs x hx).1),
      List.countP_eq_zero.mpr
        (fun x hx => by simpa using (legacy_wn_flags payerKey ixs x hx).1),
      List.countP_eq_zero.mpr
        (fun x hx => by simpa using (legacy_rn_flags payerKey ixs x hx).1)]
    omega
  · show (legacyReadonlySigners payerKey ixs).length =
      ((legacyOrderedAccounts payerKey ixs).map Prod.fst).countP _
    rw [List.countP_map, legacyOrderedAccounts, List.countP_append, List.countP_append,
      List.countP_append]
    rw [List.countP_eq_zero.mpr (fun x hx => by
        have h := legacy_ws_flags payerKey ixs x hx
        simp [h.1, h.2]),
      List.countP_eq_length.mpr (fun x hx => by
        have h := legacy_rs_flags payerKey ixs x hx
        simp [h.1, h.2]),
      List.countP_eq_zero.mpr (fun x hx => by
        have h := legacy_wn_flags payerKey ixs x hx
        simp [h.1, h.2]),
      List.countP_eq_zero.mpr (fun x hx => by
        have h := legacy_rn_flags payerKey ixs x hx
        simp [h.1, h.2])]
    omega
  · show (legacyReadonlyNonSigners payerKey ixs).length =
      ((legacyOrderedAccounts payerKey ixs).map Prod.fst).countP _
    rw [List.countP_map, legacyOrderedAccounts, List.countP_append, List.countP_append,
      List.countP_append]
    rw [List.countP_eq_zero.mpr (fun x hx => by
        have h := legacy_ws_flags payerKey ixs x hx
        simp [h.1, h.2]),
      List.countP_eq_zero.mpr (fun x hx => by
        have h := legacy_rs_flags payerKey ixs x hx
        simp [h.1, h.2]),
      List.countP_eq_zero.mpr (fun x hx => by
        have h := legacy_wn_flags payerKey ixs x hx
        simp [h.1, h.2]),
      List.countP_eq_length.mpr (fun x hx => by
        have h := legacy_rn_flags payerKey ixs x hx
        simp [h.1, h.2])]
    omega
  · show ((legacyOrderedAccounts payerKey ixs).map Prod.fst).head? = some payerKey
    rw [legacyOrderedAccounts, legacyWritableSigners, hpeq]
    have hp : (fun e : Addr × LegacyRole => e.2.isSigner && e.2.isWritable)
        (payerKey, pv) = true := by
      simp [hpv.1, hpv.2]
    rw [List.filter_cons, if_pos hp]
    simp
  · rw [hprole]; exact hpv.1
  · rw [hprole]; exact hpv.2
  · show (v0WritableSigners tables payerKey ixs).length +
        (v0ReadonlySigners tables payerKey ixs).length =
      ((v0OrderedStatic tables payerKey ixs).map Prod.fst).countP _
    rw [List.countP_map, v0OrderedStatic, List.countP_append, List.countP_append,
      List.countP_append]
    rw [List.countP_eq_length.mpr
        (fun x hx => by simpa using (v0_ws_flags tables payerKey ixs x hx).1),
      List.countP_eq_length.mpr
        (fun x hx => by simpa using (v0_rs_flags tables payerKey ixs x hx).1),
      List.countP_eq_zero.mpr
        (fun x hx => by simpa using (v0_wn_flags tables payerKey ixs x hx).1),
      List.countP_eq_zero.mpr
        (fun x hx => by simpa using (v0_rn_flags tables payerKey ixs x hx).1)]
    omega
  · show (v0ReadonlySigners tables payerKey ixs).length =
      ((v0OrderedStatic tables payerKey ixs).map Prod.fst).countP _
    rw [List.countP_map, v0OrderedStatic, List.countP_append, List.countP_append,
      List.countP_append]
    rw [List.countP_eq_zero.mpr (fun x hx => by
        have h := v0_ws_flags tables payerKey ixs x hx
        simp [h.1, h.2]),
      List.countP_eq_length.mpr (fun x hx => by
        have h := v0_rs_flags tables payerKey ixs x hx
        simp [h.1, h.2]),
      List.countP_eq_zero.mpr (fun x hx => by
        have h := v0_wn_flags tables payerKey ixs x hx
        simp [h.1, h.2]),
      List.countP_eq_zero.mpr (fun x hx => by
        have h := v0_rn_flags tables payerKey ixs x hx
        simp [h.1, h.2])]
    omega
  · show (v0ReadonlyNonSigners tables payerKey ixs).length =
      ((v0OrderedStatic tables payerKey ixs).map Prod.fst).countP _
    rw [List.countP_map, v0OrderedStatic, List.countP_append, List.countP_append,
      List.countP_append]
    rw [List.countP_eq_zero.mpr (fun x hx => by
        have h := v0_ws_flags tables payerKey ixs x hx
        simp [h.1, h.2]),
      List.countP_eq_zero.mpr (fun x hx => by
        have h := v0_rs_flags tables payerKey ixs x hx
        simp [h.1, h.2]),
      List.countP_eq_zero.mpr (fun x hx => by
        have h := v0_wn_flags tables payerKey ixs x hx
        simp [h.1, h.2]),
      List.countP_eq_length.mpr (fun x hx => by
        have h := v0_rn_flags tables payerKey ixs x hx
        simp [h.1, h.2])]
    omega
  · show ((v0OrderedStatic tables payerKey ixs).map Prod.fst).head? = some payerKey
    rw [v0OrderedStatic, v0WritableSigners, v0StaticAccounts, hqeq]
    have hq0 : (fun e : Addr × AccountEntry => e.2.fromLookup.isNone) (payerKey, qv) = true := by
      simp [hqv.2.2]
    rw [List.filter_cons, if_pos hq0]
    have hq1 : (fun e : Addr × AccountEntry => e.2.isSigner && e.2.isWritable)
        (payerKey, qv) = true := by
      simp [hqv.1, hqv.2.1]
    rw [List.filter_cons, if_pos hq1]
    simp
  · rw [hqrole]; exact hqv.1
  · rw [hqrole]; exact hqv.2.1

/-! ### Claim C3: no signer ever reaches an address-table lookup -/

/-- Every account collected into a table group comes from
`v0LookupAccounts`. -/
theorem v0TableGroups_sub (tables : List AddressLookupTableAccount) (payerKey : Addr)
    (ixs : List TransactionInstruction) :
    ∀ g ∈ v0TableGroups tables payerKey ixs, ∀ x ∈ g.2,
      x ∈ v0LookupAccounts tables payerKey ixs := by
  rw [v0TableGroups]
  refine foldl_preserve_mem
    (Q := fun e => e ∈ v0LookupAccounts tables payerKey ixs)
    (P := fun gs : List (Addr × List (Addr × AccountEntry)) =>
      ∀ g ∈ gs, ∀ x ∈ g.2, x ∈ v0LookupAccounts tables payerKey ixs)
    _ ?_ _ (fun x hx => hx) _ ?_
  · intro gs e he hgs
    cases hfl : e.2.fromLookup with
    | none => simpa [hfl] using hgs
    | some li =>
        simp only [hfl]
        intro g hg
        refine upsert_preserve_valueP
          (fun val : List (Addr × AccountEntry) =>
            ∀ x ∈ val, x ∈ v0LookupAccounts tables payerKey ixs)
          _ _ _ _ hgs ?_ ?_ g hg
        · intro x hx
          rcases List.mem_singleton.mp hx with rfl
          exact he
        · intro v hv x hx
          rcases List.mem_append.mp hx with hx' | hx'
          · exact hv x hx'
          · rcases List.mem_singleton.mp hx' with rfl
            exact he
  · intro g hg
    cases hg

/-- Every ordered lookup account lies in some table group. -/
theorem mem_foldr_groups {x : Addr × AccountEntry} :
    ∀ (gs : List (Addr × List (Addr × AccountEntry))),
      x ∈ gs.foldr
        (fun g acc =>
          (g.2.filter (fun e => e.2.isWritable) ++ g.2.filter (fun e => !e.2.isWritable)) ++
            acc) [] →
      ∃ g ∈ gs, x ∈ g.2 := by
  intro gs
  induction gs with
  | nil => intro hx; cases hx
  | cons g rest ih =>
      intro hx
      rw [List.foldr_cons] at hx
      rcases List.mem_append.mp hx with hx' | hx'
      · refine ⟨g, List.mem_cons_self _ _, ?_⟩
        rcases List.mem_append.mp hx' with hx'' | hx''
        · exact List.mem_of_mem_filter hx''
        · exact List.mem_of_mem_filter hx''
      · obtain ⟨g', hg', hxg'⟩ := ih hx'
        exact ⟨g', List.mem_cons_of_mem _ hg', hxg'⟩

/-- Every ordered lookup account lies in some table group. -/
theorem mem_v0OrderedLookup (tables : List AddressLookupTableAccount) (payerKey : Addr)
    (ixs : List TransactionInstruction) {x : Addr × AccountEntry}
    (hx : x ∈ v0OrderedLookup tables payerKey ixs) :
    ∃ g ∈ v0TableGroups tables payerKey ixs, x ∈ g.2 := by
  rw [v0OrderedLookup] at hx
  exact mem_foldr_groups _ hx

/-- C3: an address whose final merged role is a signer is always placed
among the static account keys and never contributes an entry to the
produced address-table lookups. -/
theorem signer_never_in_lookup (tables : List AddressLookupTableAccount) (payerKey : Addr)
    (ixs : List TransactionInstruction) (recentBlockhash : List Nat) (a : Addr)
    (h : (v0FinalEntry tables payerKey ixs a).isSigner = true) :
    a ∈ (MessageV0.compile ixs payerKey recentBlockhash tables).staticAccountKeys ∧
      a ∉ v0LookupAddresses tables payerKey ixs := by
  cases halo : alookup a (v0AccountMap tables payerKey ixs) with
  | none =>
      rw [v0FinalEntry, halo] at h
      cases h
  | some e =>
      have hrole : v0FinalEntry tables payerKey ixs a = e := by
        rw [v0FinalEntry, halo]
        rfl
      have hmem : (a, e) ∈ v0AccountMap tables payerKey ixs := mem_of_alookup_eq_some halo
      have hsig : e.isSigner = true := by rw [← hrole]; exact h
      have hnl : e.fromLookup = none := by
        cases hfl : e.fromLookup with
        | none => rfl
        | some li =>
            have := v0_lookup_entries_non_signer tables payerKey ixs (a, e) hmem
              (by rw [hfl]; rfl)
            rw [hsig] at this
            cases this
      have hstat : (a, e) ∈ v0StaticAccounts tables payerKey ixs :=
        List.mem_filter.mpr ⟨hmem, by simp [hnl]⟩
      constructor
      · show a ∈ (v0OrderedStatic tables payerKey ixs).map Prod.fst
        have hbucket : (a, e) ∈ v0OrderedStatic tables payerKey ixs := by
          rw [v0OrderedStatic]
          cases hw : e.isWritable with
          | true =>
              have hws : (a, e) ∈ v0WritableSigners tables payerKey ixs :=
                List.mem_filter.mpr ⟨hstat, by simp [hsig, hw]⟩
              exact List.mem_append_left _ (List.mem_append_left _
                (List.mem_append_left _ hws))
          | false =>
              have hrs : (a, e) ∈ v0ReadonlySigners tables payerKey ixs :=
                List.mem_filter.mpr ⟨hstat, by simp [hsig, hw]⟩
              exact List.mem_append_left _ (List.mem_append_left _
                (List.mem_append_right _ hrs))
        exact List.mem_map_of_mem Prod.fst hbucket
      · intro hla
        rw [v0LookupAddresses] at hla
        obtain ⟨x, hxmem, hxa⟩ := List.mem_map.mp hla
        obtain ⟨g, hg, hxg⟩ := mem_v0OrderedLookup tables payerKey ixs hxmem
        have hxL : x ∈ v0LookupAccounts tables payerKey ixs :=
          v0TableGroups_sub tables payerKey ixs g hg x hxg
        obtain ⟨hxM, hxpred⟩ := List.mem_filter.mp hxL
        have hsome : alookup a (v0AccountMap tables payerKey ixs) = some x.2 := by
          refine alookup_eq_some_of_mem (nodupKeys_v0AccountMap tables payerKey ixs) ?_
          rw [← hxa]
          exact (by exact hxM)
        rw [halo] at hsome
        cases hsome
        rw [hnl] at hxpred
        cases hxpred

/-- Witness for `signer_never_in_lookup`: the fee payer P with one
instruction whose meta marks X (listed in table T) as a signer. -/
theorem signer_never_in_lookup_witness :
    [3] ∈ (MessageV0.compile [⟨[2], [⟨[3], true, false⟩], []⟩] [1] []
        [⟨[4], [[3]]⟩]).staticAccountKeys ∧
      [3] ∉ v0LookupAddresses [⟨[4], [[3]]⟩] [1] [⟨[2], [⟨[3], true, false⟩], []⟩] :=
  signer_never_in_lookup [⟨[4], [[3]]⟩] [1] [⟨[2], [⟨[3], true, false⟩], []⟩] [] [3]
    (by decide)

/-! ### Claim C4: what determines the static/lookup partition

`MessageV0.compile` assigns `fromLookup` only at an address's first
insertion into the account map, so the partition depends on the kind of
the first encounter (fee payer seed, program id, or account meta), not
only on final merged roles.  The occurrence stream below makes that
precise. -/

/-- The kind of one encounter of an address during map construction. -/
inductive OccKind where
  | payerOcc : OccKind
  | programOcc : OccKind
  | metaOcc : Bool → Bool → OccKind
deriving DecidableEq, Repr

/-- The signer flag contributed by one encounter. -/
def occSigner : OccKind → Bool
  | .payerOcc => true
  | .programOcc => false
  | .metaOcc s _ => s

/-- The writable flag contributed by one encounter. -/
def occWritable : OccKind → Bool
  | .payerOcc => true
  | .programOcc => false
  | .metaOcc _ w => w

/-- Whether an encounter is an account-meta encounter. -/
def isMetaOcc : OccKind → Bool
  | .metaOcc _ _ => true
  | _ => false

/-- The per-instruction encounters: the program id first, then each
account meta in order. -/
def occOfIx (ix : TransactionInstruction) : List (Addr × OccKind) :=
  (ix.programId, .programOcc) ::
    ix.keys.map (fun m => (m.pubkey, .metaOcc m.isSigner m.isWritable))

/-- All encounters in processing order: the fee payer seed, then the
instructions. -/
def occStream (payerKey : Addr) (ixs : List TransactionInstruction) :
    List (Addr × OccKind) :=
  (payerKey, .payerOcc) :: ixs.flatMap occOfIx

/-- Whether the first encounter of `a` is an account meta. -/
def firstIsMeta (S : List (Addr × OccKind)) (a : Addr) : Bool :=
  match S.find? (fun o => decide (o.1 = a)) with
  | some o => isMetaOcc o.2
  | none => false

/-- Whether the first encounter of `a` during compilation is an account
meta (it could instead be the fee payer seed or a program id). -/
def firstOccIsMeta (payerKey : Addr) (ixs : List TransactionInstruction) (a : Addr) : Bool :=
  firstIsMeta (occStream payerKey ixs) a

/-- One construction step of the account map for one encounter (the
payer seed is the fold's initial state, not a step). -/
def applyOcc (lookupMap : List (Addr × LookupInfo)) (m : List (Addr × AccountEntry))
    (o : Addr × OccKind) : List (Addr × AccountEntry) :=
  match o.2 with
  | .payerOcc => m
  | .programOcc => upsert o.1 id ⟨false, false, none⟩ m
  | .metaOcc s w =>
      upsert o.1 (v0MergeMeta ⟨o.1, s, w⟩) (v0InsertMeta lookupMap ⟨o.1, s, w⟩) m

theorem foldl_flatMap {α β γ : Type u} (f : α → List β) (g : γ → β → γ) (l : List α)
    (i : γ) : (l.flatMap f).foldl g i = l.foldl (fun acc x => (f x).foldl g acc) i := by
  induction l generalizing i with
  | nil => rfl
  | cons x rest ih => simp [List.foldl_append, ih]

/-- The account map is the fold of `applyOcc` over the encounter stream
tail, seeded with the fee payer entry. -/
theorem v0AccountMap_eq_foldl_occ (tables : List AddressLookupTableAccount)
    (payerKey : Addr) (ixs : List TransactionInstruction) :
    v0AccountMap tables payerKey ixs =
      (ixs.flatMap occOfIx).foldl (applyOcc (lookupMapOf tables))
        [(payerKey, ⟨true, true, none⟩)] := by
  rw [v0AccountMap, foldl_flatMap]
  congr 1
  funext m ix
  rw [occOfIx, List.foldl_cons, List.foldl_map, v0ProcessIx]
  rfl

/-- The relation between a constructed map and the encounter prefix that
produced it: key presence, the OR-merged flags, and the lookup
assignment (first encounter a non-signer meta, no later signer meta). -/
def MapMatches (lookupMap : List (Addr × LookupInfo)) (S : List (Addr × OccKind))
    (m : List (Addr × AccountEntry)) : Prop :=
  ∀ a : Addr,
    ((alookup a m).isSome ↔ (S.find? (fun o => decide (o.1 = a))).isSome) ∧
    ∀ e, alookup a m = some e →
      e.isSigner = S.any (fun o => decide (o.1 = a) && occSigner o.2) ∧
      e.isWritable = S.any (fun o => decide (o.1 = a) && occWritable o.2) ∧
      e.fromLookup =
        (if firstIsMeta S a && !e.isSigner then alookup a lookupMap else none)

theorem firstIsMeta_congr {S S' : List (Addr × OccKind)} {a : Addr}
    (h : S'.find? (fun o => decide (o.1 = a)) = S.find? (fun o => decide (o.1 = a))) :
    firstIsMeta S' a = firstIsMeta S a := by
  rw [firstIsMeta, firstIsMeta, h]

theorem mapMatches_step (lm : List (Addr × LookupInfo)) (S : List (Addr × OccKind))
    (m : List (Addr × AccountEntry)) (h : MapMatches lm S m) (o : Addr × OccKind)
    (ho : o.2 ≠ OccKind.payerOcc) : MapMatches lm (S ++ [o]) (applyOcc lm m o) := by
  obtain ⟨b, k⟩ := o
  intro a
  obtain ⟨hiff, hent⟩ := h a
  by_cases hab : b = a
  · subst hab
    cases halo : alookup b m with
    | some v =>
        have hvS : (alookup b m).isSome := by rw [halo]; rfl
        obtain ⟨oS, hoS⟩ := Option.isSome_iff_exists.mp (hiff.mp hvS)
        have hfind : (S ++ [(b, k)]).find? (fun q => decide (q.1 = b)) = some oS := by
          rw [List.find?_append, hoS]
          rfl
        have hfM : firstIsMeta (S ++ [(b, k)]) b = firstIsMeta S b :=
          firstIsMeta_congr (by rw [hfind, hoS])
        have hany : ∀ f : OccKind → Bool,
            (S ++ [(b, k)]).any (fun q => decide (q.1 = b) && f q.2) =
              (S.any (fun q => decide (q.1 = b) && f q.2) || f k) := by
          intro f
          rw [List.any_append]
          simp
        obtain ⟨h1, h2, h3⟩ := hent v halo
        cases k with
        | payerOcc => exact absurd rfl ho
        | programOcc =>
            have hlook : alookup b (applyOcc lm m (b, .programOcc)) = some v := by
              show alookup b (upsert b id ⟨false, false, none⟩ m) = some v
              rw [alookup_upsert_self, halo]
              rfl
            refine ⟨?_, ?_⟩
            · rw [hlook, hfind]
              simp
            · intro e he
              rw [hlook] at he
              injection he with he'
              subst he'
              refine ⟨?_, ?_, ?_⟩
              · rw [hany, h1]
                simp [occSigner]
              · rw [hany, h2]
                simp [occWritable]
              · rw [hfM]
                exact h3
        | metaOcc s w =>
            have hlook : alookup b (applyOcc lm m (b, .metaOcc s w)) =
                some (v0MergeMeta ⟨b, s, w⟩ v) := by
              show alookup b (upsert b _ _ m) = _
              rw [alookup_upsert_self, halo]
              rfl
            refine ⟨?_, ?_⟩
            · rw [hlook, hfind]
              simp
            · intro e he
              rw [hlook] at he
              injection he with he'
              subst he'
              refine ⟨?_, ?_, ?_⟩
              · have hos : occSigner (OccKind.metaOcc s w) = s := rfl
                rw [hany, hos]
                show (v.isSigner || s) = _
                rw [h1]
              · have how : occWritable (OccKind.metaOcc s w) = w := rfl
                rw [hany, how]
                show (v.isWritable || w) = _
                rw [h2]
              · rw [hfM]
                show (if s = true then none else v.fromLookup) = _
                cases s with
                | true =>
                    simp [v0MergeMeta]
                | false =>
                    simp only [v0MergeMeta, Bool.or_false]
                    rw [h3]
                    simp
    | none =>
        have hfS : S.find? (fun q => decide (q.1 = b)) = none := by
          cases hf : S.find? (fun q => decide (q.1 = b)) with
          | none => rfl
          | some oS =>
              have h' : (alookup b m).isSome := hiff.mpr (by rw [hf]; rfl)
              rw [halo] at h'
              cases h'
        have hfind : (S ++ [(b, k)]).find? (fun q => decide (q.1 = b)) = some (b, k) := by
          rw [List.find?_append, hfS]
          simp [List.find?]
        have hanyS : ∀ f : OccKind → Bool,
            S.any (fun q => decide (q.1 = b) && f q.2) = false := by
          intro f
          have hno := List.find?_eq_none.mp hfS
          rw [List.any_eq_false]
          intro x hx
          simp only [Bool.and_eq_true, decide_eq_true_eq, not_and]
          intro hxb
          exact absurd (by simpa using hxb) (by simpa using hno x hx)
        have hany : ∀ f : OccKind → Bool,
            (S ++ [(b, k)]).any (fun q => decide (q.1 = b) && f q.2) = f k := by
          intro f
          rw [List.any_append, hanyS]
          simp
        cases k with
        | payerOcc => exact absurd rfl ho
        | programOcc =>
            have hlook : alookup b (applyOcc lm m (b, .programOcc)) =
                some ⟨false, false, none⟩ := by
              show alookup b (upsert b id ⟨false, false, none⟩ m) = _
              rw [alookup_upsert_self, halo]
              rfl
            refine ⟨?_, ?_⟩
            · rw [hlook, hfind]
              simp
            · intro e he
              rw [hlook] at he
              injection he with he'
              subst he'
              refine ⟨?_, ?_, ?_⟩
              · rw [hany]
                rfl
              · rw [hany]
                rfl
              · rw [firstIsMeta, hfind]
                simp [isMetaOcc]
        | metaOcc s w =>
            have hlook : alookup b (applyOcc lm m (b, .metaOcc s w)) =
                some (v0InsertMeta lm ⟨b, s, w⟩) := by
              show alookup b (upsert b _ _ m) = _
              rw [alookup_upsert_self, halo]
              rfl
            refine ⟨?_, ?_⟩
            · rw [hlook, hfind]
              simp
            · intro e he
              rw [hlook] at he
              injection he with he'
              subst he'
              refine ⟨?_, ?_, ?_⟩
              · rw [hany]
                rfl
              · rw [hany]
                rfl
              · rw [firstIsMeta, hfind]
                show (if s = true then none else alookup b lm) = _
                cases s with
                | true => simp [v0InsertMeta, isMetaOcc]
                | false => simp [v0InsertMeta, isMetaOcc]
  · have hsingle : List.find? (fun q : Addr × OccKind => decide (q.1 = a)) [(b, k)] =
        none := by
      simp [List.find?_cons, hab]
    have hfind : (S ++ [(b, k)]).find? (fun q => decide (q.1 = a)) =
        S.find? (fun q => decide (q.1 = a)) := by
      rw [List.find?_append, hsingle]
      cases S.find? (fun q => decide (q.1 = a)) <;> rfl
    have hany1 : ∀ f : OccKind → Bool,
        (S ++ [(b, k)]).any (fun q => decide (q.1 = a) && f q.2) =
          S.any (fun q => decide (q.1 = a) && f q.2) := by
      intro f
      rw [List.any_append]
      simp [hab]
    have hlook : alookup a (applyOcc lm m (b, k)) = alookup a m := by
      cases k with
      | payerOcc => rfl
      | programOcc => exact alookup_upsert_ne _ _ _ _ _ (fun hh => hab hh.symm)
      | metaOcc s w => exact alookup_upsert_ne _ _ _ _ _ (fun hh => hab hh.symm)
    refine ⟨?_, ?_⟩
    · rw [hlook, hfind]
      exact hiff
    · intro e he
      rw [hlook] at he
      obtain ⟨h1, h2, h3⟩ := hent e he
      refine ⟨?_, ?_, ?_⟩
      · rw [hany1]
        exact h1
      · rw [hany1]
        exact h2
      · rw [firstIsMeta_congr hfind]
        exact h3

theorem mapMatches_foldl (lm : List (Addr × LookupInfo)) :
    ∀ (T : List (Addr × OccKind)) (S : List (Addr × OccKind))
      (m : List (Addr × AccountEntry)), MapMatches lm S m →
      (∀ o ∈ T, o.2 ≠ OccKind.payerOcc) →
      MapMatches lm (S ++ T) (T.foldl (applyOcc lm) m) := by
  intro T
  induction T with
  | nil =>
      intro S m h _
      simpa using h
  | cons o T' ih =>
      intro S m h hT
      rw [List.foldl_cons]
      have h1 := mapMatches_step lm S m h o (hT o (List.mem_cons_self _ _))
      have h2 := ih (S ++ [o]) _ h1 (fun q hq => hT q (List.mem_cons_of_mem _ hq))
      simpa [List.append_assoc] using h2

theorem mapMatches_base (lm : List (Addr × LookupInfo)) (payerKey : Addr) :
    MapMatches lm [(payerKey, OccKind.payerOcc)] [(payerKey, ⟨true, true, none⟩)] := by
  intro a
  by_cases hp : payerKey = a
  · subst hp
    constructor
    · simp [alookup, List.find?]
    · intro e he
      rw [alookup, if_pos rfl] at he
      injection he with he'
      subst he'
      refine ⟨by simp [occSigner], by simp [occWritable], ?_⟩
      simp [firstIsMeta, List.find?, isMetaOcc]
  · constructor
    · simp [alookup, List.find?, hp]
    · intro e he
      rw [alookup, if_neg hp] at he
      cases he

theorem occTail_no_payer (ixs : List TransactionInstruction) :
    ∀ o ∈ ixs.flatMap occOfIx, o.2 ≠ OccKind.payerOcc := by
  intro o ho
  obtain ⟨ix, _, hoix⟩ := List.mem_flatMap.mp ho
  rw [occOfIx] at hoix
  rcases List.mem_cons.mp hoix with rfl | homap
  · intro hc
    cases hc
  · obtain ⟨meta, _, hmeta⟩ := List.mem_map.mp homap
    rw [← hmeta]
    intro hc
    cases hc

/-- The full account-map characterization over the encounter stream. -/
theorem v0AccountMap_matches (tables : List AddressLookupTableAccount) (payerKey : Addr)
    (ixs : List TransactionInstruction) :
    MapMatches (lookupMapOf tables) (occStream payerKey ixs)
      (v0AccountMap tables payerKey ixs) := by
  rw [v0AccountMap_eq_foldl_occ]
  have h := mapMatches_foldl (lookupMapOf tables) (ixs.flatMap occOfIx)
    [(payerKey, OccKind.payerOcc)] [(payerKey, ⟨true, true, none⟩)]
    (mapMatches_base _ payerKey) (occTail_no_payer ixs)
  simpa [occStream] using h

/-! The lookup map resolves to the first caller-supplied table containing
an address, at the address's first position inside that table. -/

theorem alookup_foldl_insertIfAbsent (pairs : List (Addr × LookupInfo)) (a : Addr) :
    ∀ (init : List (Addr × LookupInfo)),
      alookup a (pairs.foldl (fun m p => upsert p.1 id p.2 m) init) =
        Option.or (alookup a init)
          ((pairs.find? (fun p => decide (p.1 = a))).map Prod.snd) := by
  induction pairs with
  | nil =>
      intro init
      show alookup a init = Option.or (alookup a init)
        (Option.map Prod.snd (List.find? (fun p => decide (p.1 = a)) []))
      cases alookup a init <;> rfl
  | cons p rest ih =>
      intro init
      rw [List.foldl_cons, ih]
      by_cases hp : p.1 = a
      · have hup : upsert p.1 id p.2 init = upsert a id p.2 init := by rw [hp]
        rw [hup, alookup_upsert_self]
        have hfind : List.find? (fun q => decide (q.1 = a)) (p :: rest) = some p :=
          List.find?_cons_of_pos _ (by simp [hp])
        rw [hfind]
        cases halo : alookup a init <;> rfl
      · have hne : a ≠ p.1 := fun hh => hp hh.symm
        rw [alookup_upsert_ne _ _ _ _ _ hne]
        have hfind : List.find? (fun q => decide (q.1 = a)) (p :: rest) =
            List.find? (fun q => decide (q.1 = a)) rest :=
          List.find?_cons_of_neg _ (by simp [hp])
        rw [hfind]

theorem lookupMapOf_eq_flat (tables : List AddressLookupTableAccount) :
    lookupMapOf tables =
      (tables.flatMap
          (fun t => t.addresses.enum.map (fun p => (p.2, LookupInfo.mk p.1 t.key)))).foldl
        (fun m p => upsert p.1 id p.2 m) [] := by
  rw [lookupMapOf, foldl_flatMap]
  congr 1
  funext m t
  rw [List.foldl_map]

/-- The spec-side description of lookup-table assignment: the first
caller-supplied table containing the address wins, recording the
address's first index within that table. -/
def firstTableAssignment (tables : List AddressLookupTableAccount) (a : Addr) :
    Option LookupInfo :=
  match tables.find? (fun t => decide (a ∈ t.addresses)) with
  | some t => some ⟨idxOf a t.addresses, t.key⟩
  | none => none

theorem find?_enumFrom_map (tkey : Addr) (a : Addr) :
    ∀ (l : List Addr) (n : Nat),
      ((l.enumFrom n).map (fun p : Nat × Addr => (p.2, LookupInfo.mk p.1 tkey))).find?
          (fun q => decide (q.1 = a)) =
        if a ∈ l then some (a, ⟨n + idxOf a l, tkey⟩) else none := by
  intro l
  induction l with
  | nil => intro n; rfl
  | cons b rest ih =>
      intro n
      show List.find? _ (((b, LookupInfo.mk n tkey)) :: _) = _
      by_cases hb : b = a
      · subst hb
        rw [List.find?_cons_of_pos _ (by simp)]
        rw [if_pos (List.mem_cons_self _ _)]
        rw [idxOf, if_pos rfl]
        simp
      · rw [List.find?_cons_of_neg _ (by simp [hb]), ih (n + 1)]
        by_cases hmem : a ∈ rest
        · rw [if_pos hmem, if_pos (List.mem_cons_of_mem _ hmem)]
          rw [idxOf, if_neg hb]
          have : n + 1 + idxOf a rest = n + (idxOf a rest + 1) := by omega
          rw [this]
        · rw [if_neg hmem, if_neg (by
            intro hc
            rcases List.mem_cons.mp hc with hc' | hc'
            · exact hb hc'.symm
            · exact hmem hc')]

theorem option_or_some {α : Type u} (x : α) (y : Option α) : Option.or (some x) y = some x :=
  rfl

theorem alookup_lookupMapOf (tables : List AddressLookupTableAccount) (a : Addr) :
    alookup a (lookupMapOf tables) = firstTableAssignment tables a := by
  rw [lookupMapOf_eq_flat, alookup_foldl_insertIfAbsent]
  show Option.or none _ = _
  rw [Option.none_or]
  induction tables with
  | nil => rfl
  | cons t rest ih =>
      rw [List.flatMap_cons, List.find?_append]
      have henum := find?_enumFrom_map t.key a t.addresses 0
      have he : t.addresses.enum = t.addresses.enumFrom 0 := rfl
      rw [he]
      by_cases hmem : a ∈ t.addresses
      · rw [henum, if_pos hmem, option_or_some]
        rw [firstTableAssignment, List.find?_cons_of_pos _ (by simp [hmem])]
        simp
      · rw [henum, if_neg hmem, Option.none_or, ih]
        rw [firstTableAssignment, firstTableAssignment,
          List.find?_cons_of_neg _ (by simp [hmem])]

theorem v0_static_mem_iff (tables : List AddressLookupTableAccount) (payerKey : Addr)
    (ixs : List TransactionInstruction) {a : Addr} {e : AccountEntry}
    (h : alookup a (v0AccountMap tables payerKey ixs) = some e) :
    a ∈ (v0OrderedStatic tables payerKey ixs).map Prod.fst ↔ e.fromLookup = none := by
  constructor
  · intro hmem
    obtain ⟨x, hx, hxa⟩ := List.mem_map.mp hmem
    have hxstat : x ∈ v0StaticAccounts tables payerKey ixs := by
      rw [v0OrderedStatic] at hx
      rcases List.mem_append.mp hx with hx1 | hx4
      · rcases List.mem_append.mp hx1 with hx2 | hx3
        · rcases List.mem_append.mp hx2 with hxa' | hxb'
          · exact List.mem_of_mem_filter hxa'
          · exact List.mem_of_mem_filter hxb'
        · exact List.mem_of_mem_filter hx3
      · exact List.mem_of_mem_filter hx4
    obtain ⟨hxM, hxpred⟩ := List.mem_filter.mp hxstat
    have hsome : alookup a (v0AccountMap tables payerKey ixs) = some x.2 := by
      refine alookup_eq_some_of_mem (nodupKeys_v0AccountMap tables payerKey ixs) ?_
      rw [← hxa]
      exact (by exact hxM)
    rw [h] at hsome
    injection hsome with h'
    rw [h']
    exact Option.isNone_iff_eq_none.mp hxpred
  · intro hnone
    have hmemM : (a, e) ∈ v0AccountMap tables payerKey ixs := mem_of_alookup_eq_some h
    have hstat : (a, e) ∈ v0StaticAccounts tables payerKey ixs :=
      List.mem_filter.mpr ⟨hmemM, by simp [hnone]⟩
    have hbucket : (a, e) ∈ v0OrderedStatic tables payerKey ixs := by
      rw [v0OrderedStatic]
      cases hs : e.isSigner <;> cases hw : e.isWritable
      · exact List.mem_append_right _
          (List.mem_filter.mpr ⟨hstat, by simp [hs, hw]⟩)
      · exact List.mem_append_left _ (List.mem_append_right _
          (List.mem_filter.mpr ⟨hstat, by simp [hs, hw]⟩))
      · exact List.mem_append_left _ (List.mem_append_left _ (List.mem_append_right _
          (List.mem_filter.mpr ⟨hstat, by simp [hs, hw]⟩)))
      · exact List.mem_append_left _ (List.mem_append_left _ (List.mem_append_left _
          (List.mem_filter.mpr ⟨hstat, by simp [hs, hw]⟩)))
    exact List.mem_map_of_mem Prod.fst hbucket

/-- C4 counterexample: fee payer [1]; the first instruction's program id
is [3] (no metas); the second instruction references [3] as a readonly
non-signer meta; table [4] lists [3].  The final merged role of [3] has
signer=false and [3] sits in a caller-supplied table, so the claim
predicts it becomes a lookup candidate — yet the code leaves [3] static
and produces no address-table lookups, because [3] was first inserted as
a program id. -/
theorem lookup_partition_order_dependent_cex :
    (v0FinalEntry [⟨[4], [[3]]⟩] [1]
        [⟨[3], [], []⟩, ⟨[2], [⟨[3], false, false⟩], []⟩] [3]).isSigner = false ∧
    [3] ∈ (AddressLookupTableAccount.mk [4] [[3]]).addresses ∧
    (MessageV0.compile [⟨[3], [], []⟩, ⟨[2], [⟨[3], false, false⟩], []⟩] [1] []
        [⟨[4], [[3]]⟩]).addressTableLookups = [] ∧
    [3] ∈ (MessageV0.compile [⟨[3], [], []⟩, ⟨[2], [⟨[3], false, false⟩], []⟩] [1] []
        [⟨[4], [[3]]⟩]).staticAccountKeys := by decide

/-- C4 (amended): the static/lookup partition is determined by final
merged roles TOGETHER WITH the kind of the address's first encounter: an
address is assigned to lookup exactly when its first encounter (in the
order fee payer, then per instruction the program id then its account
metas) is an account meta, its final merged role has signer=false, and it
appears in some caller-supplied table — the first table in caller order
containing it winning, at the address's first index inside that table;
every signer, every address absent from all tables, and every address
first encountered as the fee payer or a program id is static. -/
theorem lookup_partition_characterization :
    (∀ (tables : List AddressLookupTableAccount) (payerKey : Addr)
        (ixs : List TransactionInstruction) (a : Addr) (e : AccountEntry),
      alookup a (v0AccountMap tables payerKey ixs) = some e →
      e.fromLookup =
        (if firstOccIsMeta payerKey ixs a && !e.isSigner then
          alookup a (lookupMapOf tables) else none)) ∧
    (∀ (tables : List AddressLookupTableAccount) (payerKey : Addr)
        (ixs : List TransactionInstruction) (recentBlockhash : List Nat) (a : Addr)
        (e : AccountEntry),
      alookup a (v0AccountMap tables payerKey ixs) = some e →
      (a ∈ (MessageV0.compile ixs payerKey recentBlockhash tables).staticAccountKeys ↔
        e.fromLookup = none)) ∧
    (∀ (tables : List AddressLookupTableAccount) (a : Addr),
      alookup a (lookupMapOf tables) = firstTableAssignment tables a) := by
  refine ⟨?_, ?_, alookup_lookupMapOf⟩
  · intro tables payerKey ixs a e he
    have h := (v0AccountMap_matches tables payerKey ixs a).2 e he
    rw [firstOccIsMeta]
    exact h.2.2
  · intro tables payerKey ixs recentBlockhash a e he
    exact v0_static_mem_iff tables payerKey ixs he

/-- Witness for `lookup_partition_characterization` at the
program-id-first input. -/
theorem lookup_partition_characterization_witness :
    ((AccountEntry.mk false false none).fromLookup =
      (if firstOccIsMeta [1] [⟨[3], [], []⟩, ⟨[2], [⟨[3], false, false⟩], []⟩] [3] &&
          !(AccountEntry.mk false false none).isSigner then
        alookup [3] (lookupMapOf [⟨[4], [[3]]⟩]) else none)) ∧
    ([3] ∈ (MessageV0.compile [⟨[3], [], []⟩, ⟨[2], [⟨[3], false, false⟩], []⟩] [1] []
        [⟨[4], [[3]]⟩]).staticAccountKeys ↔
      (AccountEntry.mk false false none).fromLookup = none) :=
  ⟨lookup_partition_characterization.1 [⟨[4], [[3]]⟩] [1]
      [⟨[3], [], []⟩, ⟨[2], [⟨[3], false, false⟩], []⟩] [3] ⟨false, false, none⟩ (by decide),
    lookup_partition_characterization.2.1 [⟨[4], [[3]]⟩] [1]
      [⟨[3], [], []⟩, ⟨[2], [⟨[3], false, false⟩], []⟩] [] [3] ⟨false, false, none⟩
      (by decide)⟩

/-! ### Claim C6: message round trip

`Message.serialize` / `Message.from` and `MessageV0.serialize` /
`MessageV0.deserialize` delegate the byte work to the compiled-message
codec of the repository's transaction-messages package, which is not
included under src/.  The byte layout below is modelled from the spec's
wire description (section 6). -/

/-- Modelled from the spec: the shortU16 parser of the external codec,
the inverse of `shortU16Encode` (1-3 bytes, 7-bit little-endian groups
with a continuation bit). -/
def parseShortU16 : List Nat → Option (Nat × List Nat)
  | [] => none
  | b0 :: r =>
      if b0 < 128 then some (b0, r)
      else
        match r with
        | [] => none
        | b1 :: r2 =>
            if b1 < 128 then some ((b0 - 128) + 128 * b1, r2)
            else
              match r2 with
              | [] => none
              | b2 :: r3 => some ((b0 - 128) + 128 * (b1 - 128) + 16384 * b2, r3)

/-- Modelled from the spec: read exactly `n` bytes. -/
def readN (n : Nat) (s : List Nat) : Option (List Nat × List Nat) :=
  if n ≤ s.length then some (s.take n, s.drop n) else none

/-- Modelled from the spec: read one byte. -/
def readByte : List Nat → Option (Nat × List Nat)
  | [] => none
  | b :: r => some (b, r)

/-- Modelled from the spec: parse `n` consecutive items. -/
def parseCount (p : List Nat → Option (α × List Nat)) :
    Nat → List Nat → Option (List α × List Nat)
  | 0, s => some ([], s)
  | n + 1, s =>
      (p s).bind fun q =>
        (parseCount p n q.2).map fun q2 => (q.1 :: q2.1, q2.2)

/-- Modelled from the spec: the 3-byte header. -/
def encodeHeader (h : MessageHeader) : List Nat :=
  [h.numRequiredSignatures, h.numReadonlySignedAccounts, h.numReadonlyUnsignedAccounts]

/-- Modelled from the spec: one compiled instruction — program index
byte, compact-array of account-index bytes, compact-array of data
bytes. -/
def encodeInstructionBytes (ix : CompiledInstruction) : List Nat :=
  ix.programIdIndex :: (shortU16Encode ix.accounts.length ++ ix.accounts ++
    shortU16Encode ix.data.length ++ ix.data)

/-- Modelled from the spec: one address-table lookup — 32-byte table
address, compact-array of writable indexes, compact-array of readonly
indexes. -/
def encodeLookupBytes (l : MessageAddressTableLookup) : List Nat :=
  l.accountKey ++ shortU16Encode l.writableIndexes.length ++ l.writableIndexes ++
    shortU16Encode l.readonlyIndexes.length ++ l.readonlyIndexes

/-- `Message.serialize` (message.ts lines 269-290): the legacy §6 layout —
header, compact-array of 32-byte keys, 32-byte lifetime token,
compact-array of instructions. -/
def Message.serialize (m : Message) : List Nat :=
  encodeHeader m.header ++ shortU16Encode m.accountKeys.length ++
    m.accountKeys.flatten ++ m.recentBlockhash ++
    shortU16Encode m.instructions.length ++
    (m.instructions.map encodeInstructionBytes).flatten

/-- The v0 message body: the same fields as legacy, then the
compact-array of address-table lookups. -/
def v0BodyBytes (m : MessageV0) : List Nat :=
  encodeHeader m.header ++ shortU16Encode m.staticAccountKeys.length ++
    m.staticAccountKeys.flatten ++ m.recentBlockhash ++
    shortU16Encode m.compiledInstructions.length ++
    (m.compiledInstructions.map encodeInstructionBytes).flatten ++
    shortU16Encode m.addressTableLookups.length ++
    (m.addressTableLookups.map encodeLookupBytes).flatten

/-- `MessageV0.serialize` (message.ts lines 469-493): the 0x80 version
byte, then the v0 body. -/
def MessageV0.serialize (m : MessageV0) : List Nat :=
  128 :: v0BodyBytes m

/-- Modelled from the spec: the header parser. -/
def parseHeader : List Nat → Option (MessageHeader × List Nat)
  | a :: b :: c :: r => some (⟨a, b, c⟩, r)
  | _ => none

/-- Modelled from the spec: a 32-byte account key. -/
def parseKey (s : List Nat) : Option (Addr × List Nat) := readN 32 s

/-- Modelled from the spec: one compiled instruction. -/
def parseInstruction (s : List Nat) : Option (CompiledInstruction × List Nat) :=
  (readByte s).bind fun q1 =>
    (parseShortU16 q1.2).bind fun q2 =>
      (readN q2.1 q2.2).bind fun q3 =>
        (parseShortU16 q3.2).bind fun q4 =>
          (readN q4.1 q4.2).bind fun q5 =>
            some (⟨q1.1, q3.1, q5.1⟩, q5.2)

/-- Modelled from the spec: one address-table lookup. -/
def parseLookup (s : List Nat) : Option (MessageAddressTableLookup × List Nat) :=
  (readN 32 s).bind fun q1 =>
    (parseShortU16 q1.2).bind fun q2 =>
      (readN q2.1 q2.2).bind fun q3 =>
        (parseShortU16 q3.2).bind fun q4 =>
          (readN q4.1 q4.2).bind fun q5 =>
            some (⟨q1.1, q3.1, q5.1⟩, q5.2)

/-- Modelled from the spec: the legacy message body. -/
def parseLegacyMsg (s : List Nat) : Option (Message × List Nat) :=
  (parseHeader s).bind fun q1 =>
    (parseShortU16 q1.2).bind fun q2 =>
      (parseCount parseKey q2.1 q2.2).bind fun q3 =>
        (readN 32 q3.2).bind fun q4 =>
          (parseShortU16 q4.2).bind fun q5 =>
            (parseCount parseInstruction q5.1 q5.2).bind fun q6 =>
              some (⟨q1.1, q3.1, q4.1, q6.1⟩, q6.2)

/-- Modelled from the spec: the v0 message body (after the version
byte). -/
def parseV0Tail (s : List Nat) : Option (MessageV0 × List Nat) :=
  (parseHeader s).bind fun q1 =>
    (parseShortU16 q1.2).bind fun q2 =>
      (parseCount parseKey q2.1 q2.2).bind fun q3 =>
        (readN 32 q3.2).bind fun q4 =>
          (parseShortU16 q4.2).bind fun q5 =>
            (parseCount parseInstruction q5.1 q5.2).bind fun q6 =>
              (parseShortU16 q6.2).bind fun q7 =>
                (parseCount parseLookup q7.1 q7.2).bind fun q8 =>
                  some (⟨q1.1, q3.1, q4.1, q6.1, q8.1⟩, q8.2)

/-- The result of the auto-detecting compiled-message decoder. -/
inductive DecodedMessage where
  | legacy : Message → DecodedMessage
  | v0 : MessageV0 → DecodedMessage
deriving DecidableEq, Repr

/-- Modelled from the spec: the auto-detecting compiled-message decoder
(`getCompiledTransactionMessageDecoder`): byte 0 with bit 7 clear is a
legacy header byte; 0x80 selects the v0 layout; 0 is the only defined
versioned layout, so any other version fails. -/
def decodeCompiledMessage (s : List Nat) : Option DecodedMessage :=
  match s with
  | [] => none
  | b :: rest =>
      if b < 128 then (parseLegacyMsg s).map (fun p => DecodedMessage.legacy p.1)
      else if b = 128 then (parseV0Tail rest).map (fun p => DecodedMessage.v0 p.1)
      else none

/-- `Message.from` (message.ts lines 295-316): decodes with the
auto-detecting decoder and reads the shared fields (a v0 payload would
contribute its static fields; lookups are dropped). -/
def Message.fromBytes (s : List Nat) : Option Message :=
  match decodeCompiledMessage s with
  | some (.legacy m) => some m
  | some (.v0 m) =>
      some ⟨m.header, m.staticAccountKeys, m.recentBlockhash, m.compiledInstructions⟩
  | none => none

/-- `MessageV0.deserialize` (message.ts lines 498-528): decodes and
rejects a legacy result ("Expected versioned message but got legacy"). -/
def MessageV0.deserialize (s : List Nat) : Option MessageV0 :=
  match decodeCompiledMessage s with
  | some (.v0 m) => some m
  | _ => none

/-- Wire-range well-formedness of a compiled instruction: index and data
bytes fit a u8, array lengths fit the compact-u16 prefix. -/
def wfInstruction (ix : CompiledInstruction) : Prop :=
  ix.programIdIndex < 256 ∧ ix.accounts.length < 65536 ∧ (∀ i ∈ ix.accounts, i < 256) ∧
    ix.data.length < 65536 ∧ (∀ b ∈ ix.data, b < 256)

/-- Wire-range well-formedness of the key list and lifetime token. -/
def wfKeysToken (keys : List Addr) (token : List Nat) : Prop :=
  keys.length < 65536 ∧ (∀ k ∈ keys, k.length = 32 ∧ ∀ b ∈ k, b < 256) ∧
    token.length = 32 ∧ (∀ b ∈ token, b < 256)

/-- Wire-range well-formedness of a legacy message; bit 7 of
numRequiredSignatures must be clear, or the serialized first byte would
be taken for a version marker. -/
def wfLegacyMessage (m : Message) : Prop :=
  m.header.numRequiredSignatures < 128 ∧ m.header.numReadonlySignedAccounts < 256 ∧
    m.header.numReadonlyUnsignedAccounts < 256 ∧
    wfKeysToken m.accountKeys m.recentBlockhash ∧
    m.instructions.length < 65536 ∧ (∀ ix ∈ m.instructions, wfInstruction ix)

/-- Wire-range well-formedness of an address-table lookup. -/
def wfLookup (l : MessageAddressTableLookup) : Prop :=
  l.accountKey.length = 32 ∧ (∀ b ∈ l.accountKey, b < 256) ∧
    l.writableIndexes.length < 65536 ∧ (∀ i ∈ l.writableIndexes, i < 256) ∧
    l.readonlyIndexes.length < 65536 ∧ (∀ i ∈ l.readonlyIndexes, i < 256)

/-- Wire-range well-formedness of a v0 message. -/
def wfV0Message (m : MessageV0) : Prop :=
  m.header.numRequiredSignatures < 256 ∧ m.header.numReadonlySignedAccounts < 256 ∧
    m.header.numReadonlyUnsignedAccounts < 256 ∧
    wfKeysToken m.staticAccountKeys m.recentBlockhash ∧
    m.compiledInstructions.length < 65536 ∧
    (∀ ix ∈ m.compiledInstructions, wfInstruction ix) ∧
    m.addressTableLookups.length < 65536 ∧ (∀ l ∈ m.addressTableLookups, wfLookup l)

instance : DecidablePred wfInstruction := fun ix => by
  unfold wfInstruction
  exact inferInstance

instance (keys : List Addr) (token : List Nat) : Decidable (wfKeysToken keys token) := by
  unfold wfKeysToken
  exact inferInstance

instance : DecidablePred wfLegacyMessage := fun m => by
  unfold wfLegacyMessage
  exact inferInstance

instance : DecidablePred wfLookup := fun l => by
  unfold wfLookup
  exact inferInstance

instance : DecidablePred wfV0Message := fun m => by
  unfold wfV0Message
  exact inferInstance

theorem parseShortU16_roundtrip (n : Nat) (h : n < 65536) (r : List Nat) :
    parseShortU16 (shortU16Encode n ++ r) = some (n, r) := by
  rw [shortU16Encode]
  by_cases h1 : n < 128
  · rw [if_pos h1]
    simp [parseShortU16, h1]
  · rw [if_neg h1]
    by_cases h2 : n < 16384
    · rw [if_pos h2]
      have hb0 : ¬(n % 128 + 128 < 128) := by omega
      have hb1 : n / 128 < 128 := by omega
      simp only [List.cons_append, List.nil_append, parseShortU16, if_neg hb0, if_pos hb1]
      have : n % 128 + 128 - 128 + 128 * (n / 128) = n := by omega
      rw [this]
    · rw [if_neg h2]
      have hb0 : ¬(n % 128 + 128 < 128) := by omega
      have hb1 : ¬(n / 128 % 128 + 128 < 128) := by omega
      simp only [List.cons_append, List.nil_append, parseShortU16, if_neg hb0, if_neg hb1]
      have : n % 128 + 128 - 128 + 128 * (n / 128 % 128 + 128 - 128) +
          16384 * (n / 16384) = n := by omega
      rw [this]

theorem readN_exact (xs r : List Nat) : readN xs.length (xs ++ r) = some (xs, r) := by
  rw [readN, if_pos]
  · rw [List.take_left, List.drop_left]
  · rw [List.length_append]
    omega

theorem parseCount_roundtrip (p : List Nat → Option (α × List Nat)) (enc : α → List Nat) :
    ∀ (l : List α) (r : List Nat),
      (∀ x ∈ l, ∀ r', p (enc x ++ r') = some (x, r')) →
      parseCount p l.length ((l.map enc).flatten ++ r) = some (l, r) := by
  intro l
  induction l with
  | nil =>
      intro r _
      simp [parseCount]
  | cons x xs ih =>
      intro r hitem
      simp only [List.map_cons, List.flatten_cons, List.append_assoc, List.length_cons]
      rw [parseCount]
      rw [hitem x (List.mem_cons_self _ _)]
      simp only [Option.some_bind]
      rw [ih r (fun y hy r' => hitem y (List.mem_cons_of_mem _ hy) r')]
      rfl

theorem parseKey_roundtrip {k : Addr} (h : k.length = 32) (r : List Nat) :
    parseKey (k ++ r) = some (k, r) := by
  rw [parseKey, ← h]
  exact readN_exact k r

theorem parseInstruction_roundtrip (ix : CompiledInstruction) (h : wfInstruction ix)
    (r : List Nat) : parseInstruction (encodeInstructionBytes ix ++ r) = some (ix, r) := by
  obtain ⟨pid, accs, dat⟩ := ix
  obtain ⟨_, hna, _, hnd, _⟩ := h
  simp only [encodeInstructionBytes, List.cons_append, List.append_assoc]
  rw [parseInstruction, readByte]
  simp only [Option.some_bind]
  rw [parseShortU16_roundtrip _ hna]
  simp only [Option.some_bind]
  rw [readN_exact]
  simp only [Option.some_bind]
  rw [parseShortU16_roundtrip _ hnd]
  simp only [Option.some_bind]
  rw [readN_exact]
  simp only [Option.some_bind]

theorem parseLookup_roundtrip (l : MessageAddressTableLookup) (h : wfLookup l)
    (r : List Nat) : parseLookup (encodeLookupBytes l ++ r) = some (l, r) := by
  obtain ⟨key, wIdx, rIdx⟩ := l
  obtain ⟨hk, _, hnw, _, hnr, _⟩ := h
  simp only [encodeLookupBytes, List.append_assoc]
  rw [parseLookup]
  rw [show (32 : Nat) = key.length from hk.symm, readN_exact]
  simp only [Option.some_bind]
  rw [parseShortU16_roundtrip _ hnw]
  simp only [Option.some_bind]
  rw [readN_exact]
  simp only [Option.some_bind]
  rw [parseShortU16_roundtrip _ hnr]
  simp only [Option.some_bind]
  rw [readN_exact]
  simp only [Option.some_bind]

theorem parseCount_keys (keys : List Addr) (h : ∀ k ∈ keys, k.length = 32)
    (r : List Nat) : parseCount parseKey keys.length (keys.flatten ++ r) = some (keys, r) := by
  have hrt := parseCount_roundtrip parseKey id keys r
    (fun x hx r' => parseKey_roundtrip (h x hx) r')
  simpa [List.map_id] using hrt

theorem parseLegacyMsg_roundtrip (m : Message) (h : wfLegacyMessage m) (r : List Nat) :
    parseLegacyMsg (Message.serialize m ++ r) = some (m, r) := by
  obtain ⟨⟨nrs, nros, nrou⟩, keys, token, ins⟩ := m
  simp only [wfLegacyMessage, wfKeysToken] at h
  obtain ⟨_, _, _, ⟨hkn, hk32, ht32, _⟩, hni, hwfix⟩ := h
  simp only [Message.serialize, encodeHeader, List.cons_append, List.append_assoc,
    List.nil_append]
  rw [parseLegacyMsg, parseHeader]
  simp only [Option.some_bind]
  rw [parseShortU16_roundtrip _ hkn]
  simp only [Option.some_bind]
  rw [parseCount_keys keys (fun k hk => (hk32 k hk).1)]
  simp only [Option.some_bind]
  rw [show (32 : Nat) = token.length from ht32.symm, readN_exact]
  simp only [Option.some_bind]
  rw [parseShortU16_roundtrip _ hni]
  simp only [Option.some_bind]
  rw [parseCount_roundtrip parseInstruction encodeInstructionBytes ins r
    (fun x hx r' => parseInstruction_roundtrip x (hwfix x hx) r')]
  simp only [Option.some_bind]

theorem parseV0Tail_roundtrip (m : MessageV0) (h : wfV0Message m) (r : List Nat) :
    parseV0Tail (v0BodyBytes m ++ r) = some (m, r) := by
  obtain ⟨⟨nrs, nros, nrou⟩, keys, token, ins, lks⟩ := m
  simp only [wfV0Message, wfKeysToken] at h
  obtain ⟨_, _, _, ⟨hkn, hk32, ht32, _⟩, hni, hwfix, hnl, hwfl⟩ := h
  simp only [v0BodyBytes, encodeHeader, List.cons_append, List.append_assoc,
    List.nil_append]
  rw [parseV0Tail, parseHeader]
  simp only [Option.some_bind]
  rw [parseShortU16_roundtrip _ hkn]
  simp only [Option.some_bind]
  rw [parseCount_keys keys (fun k hk => (hk32 k hk).1)]
  simp only [Option.some_bind]
  rw [show (32 : Nat) = token.length from ht32.symm, readN_exact]
  simp only [Option.some_bind]
  rw [parseShortU16_roundtrip _ hni]
  simp only [Option.some_bind]
  rw [parseCount_roundtrip parseInstruction encodeInstructionBytes ins _
    (fun x hx r' => parseInstruction_roundtrip x (hwfix x hx) r')]
  simp only [Option.some_bind]
  rw [parseShortU16_roundtrip _ hnl]
  simp only [Option.some_bind]
  rw [parseCount_roundtrip parseLookup encodeLookupBytes lks r
    (fun x hx r' => parseLookup_roundtrip x (hwfl x hx) r')]
  simp only [Option.some_bind]

theorem decodeCompiled_lt128 (b : Nat) (hb : b < 128) (rest : List Nat) :
    decodeCompiledMessage (b :: rest) =
      (parseLegacyMsg (b :: rest)).map (fun p => DecodedMessage.legacy p.1) := by
  rw [decodeCompiledMessage, if_pos hb]

theorem decodeCompiled_v0 (rest : List Nat) :
    decodeCompiledMessage (128 :: rest) =
      (parseV0Tail rest).map (fun p => DecodedMessage.v0 p.1) := by
  rw [decodeCompiledMessage]
  norm_num

/-- C6 counterexample: the legacy Message with header {128, 0, 0}, no
account keys, a 32-zero-byte blockhash and no instructions serializes
with first byte 0x80, which the auto-detecting decoder takes for the v0
version marker; decoding fails instead of reproducing the message. -/
theorem message_roundtrip_cex :
    Message.fromBytes (Message.serialize ⟨⟨128, 0, 0⟩, [], List.replicate 32 0, []⟩) =
        none ∧
      (none : Option Message) ≠
        some ⟨⟨128, 0, 0⟩, [], List.replicate 32 0, []⟩ := by
  constructor
  · rfl
  · decide

/-- C6 (amended): decoding its own encoding reproduces a message
field-for-field for every legacy Message whose fields lie within the wire
ranges and whose numRequiredSignatures is below 128 (so the serialized
first byte keeps bit 7 clear), and for every MessageV0 whose fields lie
within the wire ranges. -/
theorem message_roundtrip :
    (∀ m : Message, wfLegacyMessage m →
      Message.fromBytes (Message.serialize m) = some m) ∧
    (∀ m : MessageV0, wfV0Message m →
      MessageV0.deserialize (MessageV0.serialize m) = some m) := by
  constructor
  · intro m hwf
    have hbody := parseLegacyMsg_roundtrip m hwf []
    rw [List.append_nil] at hbody
    obtain ⟨⟨nrs, nros, nrou⟩, keys, token, ins⟩ := m
    simp only [wfLegacyMessage] at hwf
    have hlt : nrs < 128 := hwf.1
    obtain ⟨t, hser⟩ :
        ∃ t, Message.serialize ⟨⟨nrs, nros, nrou⟩, keys, token, ins⟩ = nrs :: t :=
      ⟨_, rfl⟩
    rw [Message.fromBytes, hser, decodeCompiled_lt128 nrs hlt, ← hser, hbody]
    rfl
  · intro m hwf
    have hbody := parseV0Tail_roundtrip m hwf []
    rw [List.append_nil] at hbody
    rw [MessageV0.deserialize, MessageV0.serialize, decodeCompiled_v0, hbody]
    rfl

/-- Witness for `message_roundtrip` at concrete legacy and v0
messages. -/
theorem message_roundtrip_witness :
    Message.fromBytes (Message.serialize ⟨⟨1, 0, 1⟩,
        [List.replicate 32 1, List.replicate 32 2], List.replicate 32 9,
        [⟨1, [0], [5, 6]⟩]⟩) =
      some ⟨⟨1, 0, 1⟩, [List.replicate 32 1, List.replicate 32 2],
        List.replicate 32 9, [⟨1, [0], [5, 6]⟩]⟩ ∧
    MessageV0.deserialize (MessageV0.serialize ⟨⟨1, 0, 1⟩,
        [List.replicate 32 1, List.replicate 32 2], List.replicate 32 9,
        [⟨1, [0, 2], [7]⟩], [⟨List.replicate 32 2, [0], [1]⟩]⟩) =
      some ⟨⟨1, 0, 1⟩, [List.replicate 32 1, List.replicate 32 2],
        List.replicate 32 9, [⟨1, [0, 2], [7]⟩], [⟨List.replicate 32 2, [0], [1]⟩]⟩ :=
  ⟨message_roundtrip.1 _ (by decide), message_roundtrip.2 _ (by decide)⟩

end SolanaKit
